import Mathlib

/-!
Verification of the racing_post_scraper crawling and reconciliation pipeline.

Shallow embedding of the core algorithms:
* `scripts/utils/exceptions.py` — retry configuration and `calculate_backoff`;
* `scripts/utils/network.py` — `NetworkClient.get`, the time-bounded retry loop;
* `scripts/rpscrape.py` — `sort_key`, URL discovery, and the checkpoint logic of
  `scrape_races`;
* `scripts/utils/betfair.py` — `get_data` and the multi-valued price index;
* `scripts/utils/betfair_matching.py` — `normalize_venue`, `normalize_time`,
  `match_race_to_market`;
* `scripts/utils/profiles.py` — `get_profiles` and its per-item error handling.

Python floats are modelled by `ℚ` (real-valued arithmetic), machine ints by
`ℤ`/`ℕ`.  Wall-clock time is explicit: each fetch outcome carries its duration,
and sleeps advance the clock by the computed delay.  Randomness
(`random.uniform`, `random.choice`) is modelled by explicit streams of drawn
values passed as parameters.
-/

/-! ### Retry configuration and backoff (scripts/utils/exceptions.py) -/

/-- Status codes that should trigger a retry (exceptions.py line 26). -/
def RETRYABLE_STATUS_CODES : List ℕ := [406, 429, 500, 502, 503, 504]

/-- Maximum time to keep retrying, in hours (exceptions.py line 17). -/
def RETRY_MAX_HOURS : ℚ := 23

/-- Base delay for exponential backoff, seconds (exceptions.py line 20). -/
def RETRY_BASE_DELAY : ℚ := 2

/-- Maximum delay between retries, seconds (exceptions.py line 23). -/
def RETRY_MAX_DELAY : ℚ := 1800

/-- `calculate_backoff` (exceptions.py lines 29–47).  The sampled value of
`random.uniform(0, 0.25)` is passed in as `u`; the code computes
`delay = min(base_delay * 2**attempt, max_delay)` and returns
`delay + delay * u`. -/
def calculate_backoff (attempt : ℕ) (base_delay max_delay u : ℚ) : ℚ :=
  let delay := min (base_delay * 2 ^ attempt) max_delay
  delay + delay * u

/-- `get_retry_deadline` (exceptions.py lines 50–60): `now + max_hours` hours,
with `t0` the current clock in seconds. -/
def get_retry_deadline (t0 max_hours : ℚ) : ℚ := t0 + max_hours * 3600

/-! ### NetworkClient.get (scripts/utils/network.py)

One loop iteration observes either an HTTP response (`resp`, with the time the
request took, its status code and an identifier for the response object) or a
transport-level `RequestsError` (`terr`).  The injected list of outcomes plays
the role of the network; the loop consumes it in order. -/

/-- One observable outcome of `self.session.get(...)`. -/
inductive FetchOutcome where
  | resp (dur : ℚ) (status : ℕ) (rid : ℕ)
  | terr (dur : ℚ)
deriving DecidableEq

/-- Duration of an outcome. -/
def FetchOutcome.dur : FetchOutcome → ℚ
  | .resp d _ _ => d
  | .terr d => d

/-- The outcome is a response whose status is in `RETRYABLE_STATUS_CODES`. -/
def retryableResp : FetchOutcome → Prop
  | .resp _ st _ => st ∈ RETRYABLE_STATUS_CODES
  | .terr _ => False

instance : DecidablePred retryableResp := by
  intro e; cases e <;> simp [retryableResp] <;> infer_instance

/-- The outcome is a transport-level error. -/
def isTerr : FetchOutcome → Bool
  | .resp _ _ _ => false
  | .terr _ => true

/-- The mutable locals of `NetworkClient.get` (network.py lines 108–111),
plus the current wall clock `t` and the list `obs` of outcomes observed so
far.  `lastRid` models the `response` variable (rebound on every successful
request), `lastStatus` models `last_status` (set only for retryable statuses),
`lastError` records whether `last_error` is set. -/
structure GetState where
  t : ℚ
  attempt : ℕ
  lastError : Bool
  lastStatus : Option ℕ
  lastRid : Option ℕ
  obs : List FetchOutcome
deriving DecidableEq

/-- Result of `NetworkClient.get`: a returned `(status, response)` pair, or one
of the raised exceptions.  `nameError` models the `NameError` Python would
raise at line 180 if the loop body never ran (the `response` local is unbound
there). -/
inductive GetResult where
  | ok (status : Option ℕ) (rid : ℕ)
  | networkError
  | persistent406
  | nameError
deriving DecidableEq

/-- The code after the retry loop (network.py lines 158–180). -/
def finishGet (s : GetState) : GetResult :=
  if s.lastError then .networkError
  else if s.lastStatus = some 406 then .persistent406
  else
    match s.lastRid with
    | some rid => .ok s.lastStatus rid
    | none => .nameError

/-- The `while should_continue_retry(deadline)` loop of `NetworkClient.get`
(network.py lines 113–180).  `jit` is the stream of `random.uniform(0, 0.25)`
draws, indexed by attempt number.  Returns `none` when the injected outcome
list is exhausted while the loop still wants to fetch (the run is then not
determined by the trace). -/
def getLoop (deadline base_delay max_delay : ℚ) (jit : ℕ → ℚ) :
    List FetchOutcome → GetState → Option (GetState × GetResult)
  | [], s => if s.t < deadline then none else some (s, finishGet s)
  | e :: rest, s =>
    if s.t < deadline then
      match e with
      | .resp dur status rid =>
        let t1 := s.t + dur
        let s1 : GetState :=
          { s with t := t1, lastRid := some rid, obs := s.obs ++ [.resp dur status rid] }
        if status ∈ RETRYABLE_STATUS_CODES then
          let s2 := { s1 with lastStatus := some status }
          let remaining := max (deadline - t1) 0
          if 0 < remaining then
            let delay := min (calculate_backoff s.attempt base_delay max_delay (jit s.attempt))
              remaining
            getLoop deadline base_delay max_delay jit rest
              { s2 with t := t1 + delay, attempt := s.attempt + 1 }
          else
            getLoop deadline base_delay max_delay jit rest s2
        else
          some (s1, .ok (some status) rid)
      | .terr dur =>
        let t1 := s.t + dur
        let s1 : GetState :=
          { s with t := t1, lastError := true, obs := s.obs ++ [.terr dur] }
        let remaining := max (deadline - t1) 0
        if 0 < remaining then
          let delay := min (calculate_backoff s.attempt base_delay max_delay (jit s.attempt))
            remaining
          getLoop deadline base_delay max_delay jit rest
            { s1 with t := t1 + delay, attempt := s.attempt + 1 }
        else
          getLoop deadline base_delay max_delay jit rest s1
    else
      some (s, finishGet s)

/-- A `NetworkClient`: the session identity chosen at construction and the
timeout (network.py lines 66–78). -/
structure Client where
  browser : ℕ
  timeout : ℚ
deriving DecidableEq

/-- `NetworkClient.__init__`: `choice(BROWSERS)` draws one of the 4 entries of
`BROWSERS`; the draw is passed in as `pick`. -/
def clientInit (pick : ℕ) (timeout : ℚ) : Client := ⟨pick % 4, timeout⟩

/-- `NetworkClient.get` at the client level.  The body of `get` (network.py
lines 80–180) contains no assignment to `self.session` or `self.timeout`, so
the client value is returned unchanged alongside the loop result. -/
def clientGet (c : Client) (t0 : ℚ) (evs : List FetchOutcome)
    (max_hours base_delay max_delay : ℚ) (jit : ℕ → ℚ) :
    Option (GetState × GetResult) × Client :=
  (getLoop (get_retry_deadline t0 max_hours) base_delay max_delay jit evs
    { t := t0, attempt := 0, lastError := false, lastStatus := none, lastRid := none,
      obs := [] }, c)

/-- Status and response id of the last response (not transport error) in a
list of outcomes, mirroring how `last_status`/`response` track the loop. -/
def lastRespInfo (l : List FetchOutcome) : Option (ℕ × ℕ) :=
  l.foldl (fun acc e => match e with | .resp _ st rid => some (st, rid) | .terr _ => acc) none

/-- Effect of observing one more outcome on `lastRespInfo`. -/
theorem lastRespInfo_append (l : List FetchOutcome) (e : FetchOutcome) :
    lastRespInfo (l ++ [e]) =
      match e with
      | .resp _ st rid => some (st, rid)
      | .terr _ => lastRespInfo l := by
  cases e <;> simp [lastRespInfo, List.foldl_append]

/-- Loop invariant of `NetworkClient.get`, relating the mutable locals to the
observed outcomes, under the assumption that every observed response so far
had a retryable status. -/
def GetInv (s : GetState) : Prop :=
  (∀ e ∈ s.obs, retryableResp e ∨ isTerr e = true) ∧
  (s.lastError = true ↔ ∃ e ∈ s.obs, isTerr e = true) ∧
  (∀ st rid, lastRespInfo s.obs = some (st, rid) →
    s.lastStatus = some st ∧ s.lastRid = some rid) ∧
  (lastRespInfo s.obs = none → s.lastStatus = none ∧ s.lastRid = none)

/-- Master lemma for runs of the retry loop in which every injected outcome is
a retryable-status response or a transport error: the loop exits only at or
after the deadline, consumes a prefix of the trace, preserves the invariant,
and finishes through the post-loop code. -/
theorem getLoop_run_spec (deadline base_delay max_delay : ℚ) (jit : ℕ → ℚ) :
    ∀ (evs : List FetchOutcome) (s sf : GetState) (r : GetResult),
      (∀ e ∈ evs, retryableResp e ∨ isTerr e = true) →
      GetInv s →
      getLoop deadline base_delay max_delay jit evs s = some (sf, r) →
      deadline ≤ sf.t ∧
      (∃ tk rest, sf.obs = s.obs ++ tk ∧ evs = tk ++ rest) ∧
      (s.t < deadline → ∃ e tk, sf.obs = s.obs ++ e :: tk) ∧
      GetInv sf ∧ r = finishGet sf := by
  intro evs
  induction evs with
  | nil =>
    intro s sf r _ hinv hrun
    simp only [getLoop] at hrun
    split at hrun
    · exact absurd hrun (by simp)
    · rename_i hge
      obtain ⟨rfl, rfl⟩ : s = sf ∧ finishGet s = r := by
        simpa using congrArg (fun o => (o.map Prod.fst, o.map Prod.snd)) hrun
      refine ⟨le_of_not_lt hge, ⟨[], [], by simp, rfl⟩, ?_, hinv, rfl⟩
      intro hlt; exact absurd hlt hge
  | cons e rest ih =>
    intro s sf r hall hinv hrun
    by_cases hlt : s.t < deadline
    · have hall' : ∀ x ∈ rest, retryableResp x ∨ isTerr x = true := by
        intro x hx; exact hall x (List.mem_cons_of_mem _ hx)
      cases e with
      | resp dur status rid =>
        have hst : status ∈ RETRYABLE_STATUS_CODES := by
          rcases hall _ (List.mem_cons_self _ _) with h | h
          · exact h
          · simp [isTerr] at h
        simp only [getLoop, if_pos hlt, if_pos hst] at hrun
        have hinv' : ∀ (tnew : ℚ) (anew : ℕ), GetInv ⟨tnew, anew, s.lastError, some status,
            some rid, s.obs ++ [.resp dur status rid]⟩ := by
          intro tnew anew
          obtain ⟨h1, h2, _h3, _h4⟩ := hinv
          refine ⟨?_, ?_, ?_, ?_⟩
          · intro x hx
            rcases List.mem_append.1 hx with h | h
            · exact h1 x h
            · simp at h; subst h; exact Or.inl hst
          · constructor
            · intro h
              obtain ⟨x, hx, hxt⟩ := h2.1 h
              exact ⟨x, List.mem_append_left _ hx, hxt⟩
            · rintro ⟨x, hx, hxt⟩
              rcases List.mem_append.1 hx with h | h
              · exact h2.2 ⟨x, h, hxt⟩
              · simp at h; subst h; simp [isTerr] at hxt
          · intro st rid' h
            rw [lastRespInfo_append] at h
            simp at h
            simp [h.1, h.2]
          · intro h; rw [lastRespInfo_append] at h; simp at h
        split at hrun
        · -- slept: 0 < remaining
          have hres := ih _ sf r hall' (hinv' _ _) hrun
          obtain ⟨hd, ⟨tk, rest', hobs, hrest⟩, _, hinvf, hr⟩ := hres
          refine ⟨hd, ⟨.resp dur status rid :: tk, rest', by simpa using hobs, by simp [hrest]⟩,
            ?_, hinvf, hr⟩
          intro _; exact ⟨_, tk, by simpa using hobs⟩
        · -- no sleep (remaining exhausted by the request itself)
          have hres := ih _ sf r hall' (hinv' _ _) hrun
          obtain ⟨hd, ⟨tk, rest', hobs, hrest⟩, _, hinvf, hr⟩ := hres
          refine ⟨hd, ⟨.resp dur status rid :: tk, rest', by simpa using hobs, by simp [hrest]⟩,
            ?_, hinvf, hr⟩
          intro _; exact ⟨_, tk, by simpa using hobs⟩
      | terr dur =>
        simp only [getLoop, if_pos hlt] at hrun
        have hinv' : ∀ (tnew : ℚ) (anew : ℕ), GetInv ⟨tnew, anew, true, s.lastStatus,
            s.lastRid, s.obs ++ [.terr dur]⟩ := by
          intro tnew anew
          obtain ⟨h1, _h2, h3, h4⟩ := hinv
          refine ⟨?_, ?_, ?_, ?_⟩
          · intro x hx
            rcases List.mem_append.1 hx with h | h
            · exact h1 x h
            · simp at h; subst h; exact Or.inr rfl
          · constructor
            · intro _
              exact ⟨.terr dur, List.mem_append_right _ (by simp), rfl⟩
            · intro _; rfl
          · intro st rid' h
            rw [lastRespInfo_append] at h
            simp only at h
            exact h3 st rid' h
          · intro h; rw [lastRespInfo_append] at h; simp only at h
            exact h4 h
        split at hrun
        · have hres := ih _ sf r hall' (hinv' _ _) hrun
          obtain ⟨hd, ⟨tk, rest', hobs, hrest⟩, _, hinvf, hr⟩ := hres
          refine ⟨hd, ⟨.terr dur :: tk, rest', by simpa using hobs, by simp [hrest]⟩,
            ?_, hinvf, hr⟩
          intro _; exact ⟨_, tk, by simpa using hobs⟩
        · have hres := ih _ sf r hall' (hinv' _ _) hrun
          obtain ⟨hd, ⟨tk, rest', hobs, hrest⟩, _, hinvf, hr⟩ := hres
          refine ⟨hd, ⟨.terr dur :: tk, rest', by simpa using hobs, by simp [hrest]⟩,
            ?_, hinvf, hr⟩
          intro _; exact ⟨_, tk, by simpa using hobs⟩
    · cases e with
      | resp dur status rid =>
        simp only [getLoop, if_neg hlt] at hrun
        obtain ⟨rfl, rfl⟩ : s = sf ∧ finishGet s = r := by
          simpa using congrArg (fun o => (o.map Prod.fst, o.map Prod.snd)) hrun
        refine ⟨le_of_not_lt hlt, ⟨[], _ :: rest, by simp, rfl⟩, ?_, hinv, rfl⟩
        intro h; exact absurd h hlt
      | terr dur =>
        simp only [getLoop, if_neg hlt] at hrun
        obtain ⟨rfl, rfl⟩ : s = sf ∧ finishGet s = r := by
          simpa using congrArg (fun o => (o.map Prod.fst, o.map Prod.snd)) hrun
        refine ⟨le_of_not_lt hlt, ⟨[], _ :: rest, by simp, rfl⟩, ?_, hinv, rfl⟩
        intro h; exact absurd h hlt

/-- The backoff delay actually slept is capped by the time remaining before
the deadline (network.py lines 130–132 and 147–148): on a trace of
instantaneous outcomes, the clock never passes the deadline. -/
theorem getLoop_time_le (deadline base_delay max_delay : ℚ) (jit : ℕ → ℚ) :
    ∀ (evs : List FetchOutcome) (s sf : GetState) (r : GetResult),
      (∀ e ∈ evs, FetchOutcome.dur e = 0) → s.t ≤ deadline →
      getLoop deadline base_delay max_delay jit evs s = some (sf, r) →
      sf.t ≤ deadline := by
  intro evs
  induction evs with
  | nil =>
    intro s sf r _ hle hrun
    simp only [getLoop] at hrun
    split at hrun
    · exact absurd hrun (by simp)
    · cases hrun; exact hle
  | cons e rest ih =>
    intro s sf r hdur hle hrun
    have hdur' : ∀ x ∈ rest, FetchOutcome.dur x = 0 := by
      intro x hx; exact hdur x (List.mem_cons_of_mem _ hx)
    have he : FetchOutcome.dur e = 0 := hdur e (List.mem_cons_self _ _)
    by_cases hlt : s.t < deadline
    · cases e with
      | resp dur status rid =>
        have hd0 : dur = 0 := he
        subst hd0
        simp only [getLoop, if_pos hlt] at hrun
        by_cases hst : status ∈ RETRYABLE_STATUS_CODES
        · rw [if_pos hst] at hrun
          split at hrun
          · rename_i hrem
            refine ih _ sf r hdur' ?_ hrun
            have h1 : min (calculate_backoff s.attempt base_delay max_delay (jit s.attempt))
                (max (deadline - (s.t + 0)) 0) ≤ max (deadline - (s.t + 0)) 0 :=
              min_le_right _ _
            have h2 : s.t + 0 + max (deadline - (s.t + 0)) 0 = deadline := by
              rw [max_eq_left (by linarith)]
              ring
            simp only
            calc s.t + 0 + min (calculate_backoff s.attempt base_delay max_delay (jit s.attempt))
                  (max (deadline - (s.t + 0)) 0)
                ≤ s.t + 0 + max (deadline - (s.t + 0)) 0 := by linarith
              _ = deadline := h2
          · exact ih _ sf r hdur' (by simpa using hle) hrun
        · rw [if_neg hst] at hrun
          cases hrun
          simpa using hle
      | terr dur =>
        have hd0 : dur = 0 := he
        subst hd0
        simp only [getLoop, if_pos hlt] at hrun
        split at hrun
        · rename_i hrem
          refine ih _ sf r hdur' ?_ hrun
          have h2 : s.t + 0 + max (deadline - (s.t + 0)) 0 = deadline := by
            rw [max_eq_left (by linarith)]
            ring
          have h1 : min (calculate_backoff s.attempt base_delay max_delay (jit s.attempt))
              (max (deadline - (s.t + 0)) 0) ≤ max (deadline - (s.t + 0)) 0 :=
            min_le_right _ _
          simp only
          calc s.t + 0 + min (calculate_backoff s.attempt base_delay max_delay (jit s.attempt))
                (max (deadline - (s.t + 0)) 0)
              ≤ s.t + 0 + max (deadline - (s.t + 0)) 0 := by linarith
            _ = deadline := h2
        · exact ih _ sf r hdur' (by simpa using hle) hrun
    · simp only [getLoop, if_neg hlt] at hrun
      cases e <;> (cases hrun; exact hle)

/-- If at least one outcome was observed and none of them was a transport
error, the last response is well defined. -/
theorem lastRespInfo_of_no_terr (l : List FetchOutcome) (hne : l ≠ [])
    (h : ∀ e ∈ l, isTerr e = false) : ∃ st rid, lastRespInfo l = some (st, rid) := by
  induction l using List.reverseRecOn with
  | nil => exact absurd rfl hne
  | append_singleton l' e _ih =>
    cases e with
    | resp dur st rid => exact ⟨st, rid, by rw [lastRespInfo_append]⟩
    | terr dur =>
      have := h (.terr dur) (List.mem_append_right _ (by simp))
      simp [isTerr] at this

/-- C1: on a call to `NetworkClient.get` in which every observed response has
a retryable status, the loop terminates only once the deadline has elapsed
(`deadline ≤ sf.t`, never before), having consumed a prefix of the trace; on
exhaustion it raises `NetworkError` if a transport error was recorded,
raises `Persistent406Error` if the last retryable status seen was 406, and
otherwise returns the last `(status, response)` pair. -/
theorem get_deadline_exhaustion
    (c : Client) (t0 max_hours base_delay max_delay : ℚ) (jit : ℕ → ℚ)
    (evs : List FetchOutcome) (sf : GetState) (r : GetResult)
    (hall : ∀ e ∈ evs, retryableResp e ∨ isTerr e = true)
    (hstart : t0 < get_retry_deadline t0 max_hours)
    (hrun : (clientGet c t0 evs max_hours base_delay max_delay jit).1 = some (sf, r)) :
    get_retry_deadline t0 max_hours ≤ sf.t ∧
    (∃ rest, evs = sf.obs ++ rest) ∧
    sf.obs ≠ [] ∧
    ((∃ e ∈ sf.obs, isTerr e = true) → r = .networkError) ∧
    ((∀ e ∈ sf.obs, isTerr e = false) →
      ∃ st rid, lastRespInfo sf.obs = some (st, rid) ∧
        (st = 406 → r = .persistent406) ∧ (st ≠ 406 → r = .ok (some st) rid)) := by
  have hinv0 : GetInv ⟨t0, 0, false, none, none, []⟩ := by
    refine ⟨by simp, by simp, ?_, fun _ => ⟨rfl, rfl⟩⟩
    intro st rid h
    simp [lastRespInfo] at h
  have hres := getLoop_run_spec (get_retry_deadline t0 max_hours) base_delay max_delay jit
    evs ⟨t0, 0, false, none, none, []⟩ sf r hall hinv0 hrun
  obtain ⟨hd, ⟨tk, rest, hobs, hrest⟩, hprog, hinvf, hr⟩ := hres
  simp only at hobs
  rw [List.nil_append] at hobs
  subst hobs
  obtain ⟨e, tk2, hne⟩ := hprog hstart
  rw [List.nil_append] at hne
  refine ⟨hd, ⟨rest, hrest⟩, by rw [hne]; simp, ?_, ?_⟩
  · intro hterr
    have hle : sf.lastError = true := hinvf.2.1.2 hterr
    rw [hr]
    simp [finishGet, hle]
  · intro hnone
    obtain ⟨st, rid, hlast⟩ := lastRespInfo_of_no_terr sf.obs (by rw [hne]; simp) hnone
    obtain ⟨hst, hrid⟩ := hinvf.2.2.1 st rid hlast
    have hle : sf.lastError = false := by
      cases hE : sf.lastError
      · rfl
      · obtain ⟨x, hx, hxt⟩ := hinvf.2.1.1 hE
        rw [hnone x hx] at hxt
        exact absurd hxt (by simp)
    refine ⟨st, rid, hlast, ?_, ?_⟩
    · intro h406
      rw [hr]
      simp [finishGet, hle, hst, h406]
    · intro h406
      rw [hr]
      simp [finishGet, hle, hst, hrid, h406]

/-- Final state of the concrete C1 run used as witness. -/
def c1FinalState : GetState := ⟨3, 2, false, some 429, some 7, [.resp 0 429 5, .resp 0 429 7]⟩

/-- Witness for C1: a concrete run (deadline 3 seconds after start, two 429
responses) in which the loop exhausts the deadline and returns the last 429
response. -/
theorem get_deadline_exhaustion_witness :
    get_retry_deadline 0 (1/1200) ≤ c1FinalState.t ∧ c1FinalState.obs ≠ [] :=
  have h := get_deadline_exhaustion (clientInit 0 14) 0 (1/1200) 2 4 (fun _ => 0)
    [.resp 0 429 5, .resp 0 429 7] c1FinalState (.ok (some 429) 7)
    (by decide) (by norm_num [get_retry_deadline])
    (by norm_num [clientGet, getLoop, calculate_backoff, finishGet, RETRYABLE_STATUS_CODES,
      get_retry_deadline, c1FinalState])
  ⟨h.1, h.2.2.1⟩

/-- Mean of `calculate_backoff attempt bd md u` over the uniform draw
`u ~ U(0, 1/4)`: the expression is affine in `u`, so the mean is the midpoint
of its values at the two endpoints of the interval. -/
def expected_backoff (attempt : ℕ) (base_delay max_delay : ℚ) : ℚ :=
  (calculate_backoff attempt base_delay max_delay 0 +
    calculate_backoff attempt base_delay max_delay (1/4)) / 2

/-- C7: `calculate_backoff(n, b, m)` equals `min(b * 2^n, m)` plus a jitter of
at most 25% of that value, hence lies in `[d, 1.25 d]` for
`d = min(b * 2^n, m)`, is bounded by `1.25 * m`, is non-decreasing in `n`
(pointwise in the jitter draw and in expectation), and inside
`NetworkClient.get` the slept delay is capped to the remaining time before
the deadline, so the clock never passes the deadline. -/
theorem calculate_backoff_spec (attempt : ℕ) (base_delay max_delay u : ℚ)
    (hbd : 0 ≤ base_delay) (hmd : 0 ≤ max_delay) (hu0 : 0 ≤ u) (hu1 : u ≤ 1/4) :
    min (base_delay * 2 ^ attempt) max_delay ≤ calculate_backoff attempt base_delay max_delay u ∧
    calculate_backoff attempt base_delay max_delay u ≤
      (5/4) * min (base_delay * 2 ^ attempt) max_delay ∧
    calculate_backoff attempt base_delay max_delay u ≤ (5/4) * max_delay ∧
    (∀ n m : ℕ, n ≤ m → calculate_backoff n base_delay max_delay u ≤
      calculate_backoff m base_delay max_delay u) ∧
    (∀ n m : ℕ, n ≤ m → expected_backoff n base_delay max_delay ≤
      expected_backoff m base_delay max_delay) ∧
    expected_backoff attempt base_delay max_delay =
      (9/8) * min (base_delay * 2 ^ attempt) max_delay ∧
    (∀ (deadline : ℚ) (jit : ℕ → ℚ) (evs : List FetchOutcome) (s sf : GetState) (r : GetResult),
      (∀ e ∈ evs, FetchOutcome.dur e = 0) → s.t ≤ deadline →
      getLoop deadline base_delay max_delay jit evs s = some (sf, r) → sf.t ≤ deadline) := by
  have hdmin : ∀ n : ℕ, 0 ≤ min (base_delay * 2 ^ n) max_delay := by
    intro n
    exact le_min (by positivity) hmd
  have hmono : ∀ n m : ℕ, n ≤ m →
      min (base_delay * 2 ^ n) max_delay ≤ min (base_delay * 2 ^ m) max_delay := by
    intro n m hnm
    exact min_le_min (by gcongr; norm_num) le_rfl
  refine ⟨?_, ?_, ?_, ?_, ?_, ?_, fun deadline => getLoop_time_le deadline base_delay max_delay⟩
  · simp only [calculate_backoff]
    nlinarith [hdmin attempt]
  · simp only [calculate_backoff]
    nlinarith [hdmin attempt]
  · have h1 : min (base_delay * 2 ^ attempt) max_delay ≤ max_delay := min_le_right _ _
    simp only [calculate_backoff]
    nlinarith [hdmin attempt]
  · intro n m hnm
    simp only [calculate_backoff]
    have := hmono n m hnm
    nlinarith [hdmin n]
  · intro n m hnm
    simp only [expected_backoff, calculate_backoff]
    have := hmono n m hnm
    nlinarith [hdmin n]
  · simp only [expected_backoff, calculate_backoff]
    ring

/-- Witness for C7 at attempt 1, base delay 2 s, max delay 1800 s and a
sampled jitter fraction of 1/8. -/
theorem calculate_backoff_spec_witness :
    min ((2:ℚ) * 2 ^ 1) 1800 ≤ calculate_backoff 1 2 1800 (1/8) ∧
    calculate_backoff 1 2 1800 (1/8) ≤ (5/4) * 1800 ∧
    expected_backoff 1 2 1800 = (9/8) * min ((2:ℚ) * 2 ^ 1) 1800 :=
  have h := calculate_backoff_spec 1 2 1800 (1/8)
    (by norm_num) (by norm_num) (by norm_num) (by norm_num)
  ⟨h.1, h.2.2.1, h.2.2.2.2.2.1⟩

/-- C4 (amended): the browser identity drawn at construction stays fixed for
the client's whole lifetime — `get` changes no part of the client — and a 403
status is not retryable for `NetworkClient.get`: the call returns the 403
response at once, consuming no further attempt and rotating nothing. -/
theorem clientGet_identity_fixed
    (c : Client) (t0 : ℚ) (evs : List FetchOutcome) (max_hours base_delay max_delay : ℚ)
    (jit : ℕ → ℚ) :
    (clientGet c t0 evs max_hours base_delay max_delay jit).2 = c ∧
    (∀ (dur : ℚ) (rid : ℕ) (rest : List FetchOutcome),
      t0 < get_retry_deadline t0 max_hours →
      evs = .resp dur 403 rid :: rest →
      (clientGet c t0 evs max_hours base_delay max_delay jit).1 =
        some (⟨t0 + dur, 0, false, none, some rid, [.resp dur 403 rid]⟩,
          .ok (some 403) rid)) := by
  refine ⟨rfl, ?_⟩
  intro dur rid rest hlt hevs
  subst hevs
  simp only [clientGet, getLoop, if_pos hlt]
  norm_num [RETRYABLE_STATUS_CODES]

/-- Witness for C4's amended statement: a concrete client observing a single
403 response; the call returns it immediately and the client is unchanged. -/
theorem clientGet_identity_fixed_witness :
    (clientGet (clientInit 0 14) 0 [.resp 0 403 9] 23 2 1800 (fun _ => 0)).2 = clientInit 0 14 ∧
    (clientGet (clientInit 0 14) 0 [.resp 0 403 9] 23 2 1800 (fun _ => 0)).1 =
      some (⟨0 + 0, 0, false, none, some 9, [.resp 0 403 9]⟩, .ok (some 403) 9) :=
  have h := clientGet_identity_fixed (clientInit 0 14) 0 [.resp 0 403 9] 23 2 1800 (fun _ => 0)
  ⟨h.1, h.2 0 9 [] (by norm_num [get_retry_deadline]) rfl⟩

/-- C4 counterexample: a run of `NetworkClient.get` that observes a 403
response and yet rotates nothing — the call returns the 403 immediately (the
second injected outcome is never consumed, so there is no next attempt) and
the client identity after the call is exactly the one chosen at construction.
This refutes the claim that a 403 observed during `get` causes the identity
to be rotated before the next attempt. -/
theorem clientGet_403_no_rotation :
    (clientGet (clientInit 1 14) 0 [.resp 0 403 5, .resp 0 200 6] 23 2 1800 (fun _ => 0)).1 =
      some (⟨0 + 0, 0, false, none, some 5, [.resp 0 403 5]⟩, .ok (some 403) 5) ∧
    (clientGet (clientInit 1 14) 0 [.resp 0 403 5, .resp 0 200 6] 23 2 1800 (fun _ => 0)).2 =
      clientInit 1 14 := by
  constructor
  · simp only [clientGet, getLoop]
    norm_num [get_retry_deadline, RETRYABLE_STATUS_CODES]
  · rfl

/-! ### Checkpoint handling of scrape_races (scripts/rpscrape.py lines 187–203) -/

/-- Python `list.index(x)`: index of the first occurrence (rpscrape.py line
191 uses it inside a `try`, with `ValueError` — absence — modelled as
`none`). -/
def pyIndex (x : String) : List String → Option ℕ
  | [] => none
  | y :: ys => if y = x then some 0 else (pyIndex x ys).map (· + 1)

/-- The URL-selection logic of `scrape_races` (rpscrape.py lines 187–203).
Input: the sorted URL list, the checkpoint file content (`none` when the file
does not exist, otherwise the stripped text), and whether the output file
exists.  Output: the list of URLs the loop will iterate over, whether the
"Progress URL not found" warning is logged, and the `append` flag passed to
the file writer. -/
def scrape_plan (race_urls : List String) (progress : Option String) (output_exists : Bool) :
    List String × Bool × Bool :=
  let urls_warn :=
    match progress with
    | some cp =>
      if cp ≠ "" then
        match pyIndex cp race_urls with
        | some i => (race_urls.drop (i + 1), false)
        | none => (race_urls, true)
      else (race_urls, false)
    | none => (race_urls, false)
  (urls_warn.1, urls_warn.2, progress.isSome && output_exists)

/-- On a duplicate-free list, `pyIndex` finds exactly the index holding the
element. -/
theorem pyIndex_of_nodup (l : List String) (x : String) (i : ℕ)
    (hnd : l.Nodup) (h : l[i]? = some x) : pyIndex x l = some i := by
  induction l generalizing i with
  | nil => simp at h
  | cons y ys ih =>
    by_cases hyx : y = x
    · subst hyx
      cases i with
      | zero => simp [pyIndex]
      | succ j =>
        simp only [List.getElem?_cons_succ] at h
        exact absurd (List.getElem?_mem h) (List.nodup_cons.1 hnd).1
    · cases i with
      | zero => simp at h; exact absurd h hyx
      | succ j =>
        simp only [List.getElem?_cons_succ] at h
        simp [pyIndex, hyx, ih j (List.nodup_cons.1 hnd).2 h]

/-- When the element is absent, `pyIndex` reports `none` (the `ValueError`
branch). -/
theorem pyIndex_of_not_mem (l : List String) (x : String) (h : x ∉ l) :
    pyIndex x l = none := by
  induction l with
  | nil => rfl
  | cons y ys ih =>
    have hyx : y ≠ x := fun hc => h (hc ▸ List.mem_cons_self y ys)
    simp only [pyIndex, if_neg hyx]
    rw [ih (fun hc => h (List.mem_cons_of_mem _ hc))]
    rfl

/-- C2: with a duplicate-free sorted URL list and a non-empty checkpoint: if
the checkpoint is the element at index `i`, the loop processes exactly the
URLs at indices strictly greater than `i` (none skipped, none at or before
`i` re-emitted), no warning is logged and output is appended iff the output
file exists; if the checkpoint is absent from the list, the whole list is
processed from the beginning and the warning is logged. -/
theorem scrape_races_checkpoint (race_urls : List String) (cp : String) (out_exists : Bool)
    (hnd : race_urls.Nodup) (hne : cp ≠ "") :
    (∀ i, race_urls[i]? = some cp →
      (scrape_plan race_urls (some cp) out_exists).1 = race_urls.drop (i + 1) ∧
      (∀ j, i < j → (scrape_plan race_urls (some cp) out_exists).1[j - (i + 1)]? =
        race_urls[j]?) ∧
      (∀ j u, j ≤ i → race_urls[j]? = some u →
        u ∉ (scrape_plan race_urls (some cp) out_exists).1) ∧
      (scrape_plan race_urls (some cp) out_exists).2.1 = false ∧
      (scrape_plan race_urls (some cp) out_exists).2.2 = out_exists) ∧
    (cp ∉ race_urls →
      (scrape_plan race_urls (some cp) out_exists).1 = race_urls ∧
      (scrape_plan race_urls (some cp) out_exists).2.1 = true) := by
  constructor
  · intro i h
    have hidx := pyIndex_of_nodup race_urls cp i hnd h
    have hplan : scrape_plan race_urls (some cp) out_exists =
        (race_urls.drop (i + 1), false, out_exists) := by
      simp [scrape_plan, hne, hidx]
    refine ⟨by rw [hplan], ?_, ?_, by rw [hplan], by rw [hplan]⟩
    · intro j hj
      rw [hplan]
      simp only
      rw [List.getElem?_drop]
      congr 1
      omega
    · intro j u hj hu
      rw [hplan]
      simp only
      intro hmem
      obtain ⟨k, hk⟩ := List.mem_iff_getElem?.1 hmem
      rw [List.getElem?_drop] at hk
      have hjlen : j < race_urls.length := by
        by_contra hge
        rw [List.getElem?_eq_none (by omega)] at hu
        exact absurd hu (by simp)
      have := List.getElem?_inj hjlen hnd (hu.trans hk.symm)
      omega
  · intro habs
    have hidx := pyIndex_of_not_mem race_urls cp habs
    constructor <;> simp [scrape_plan, hne, hidx]

/-- Witness for C2 on the concrete list `["u1", "u2", "u3"]` with checkpoint
`"u2"` at index 1: only `"u3"` is processed, no warning, append mode on. -/
theorem scrape_races_checkpoint_witness :
    (scrape_plan ["u1", "u2", "u3"] (some "u2") true).1 = ["u3"] ∧
    (scrape_plan ["u1", "u2", "u3"] (some "u2") true).2.1 = false ∧
    (scrape_plan ["u1", "u2", "u3"] (some "u2") true).2.2 = true :=
  have h := (scrape_races_checkpoint ["u1", "u2", "u3"] "u2" true
    (by decide) (by decide)).1 1 rfl
  ⟨h.1, h.2.2.2.1, h.2.2.2.2⟩

/-! ### Race discovery (scripts/rpscrape.py lines 63–126) -/

/-- Python comparison of two characters: by Unicode code point. -/
def pyCharLt (a b : Char) : Bool := decide (a.toNat < b.toNat)

/-- Python comparison of two strings as lists of characters: lexicographic by
code point, a strict prefix comparing less. -/
def pyStrLtL : List Char → List Char → Bool
  | [], [] => false
  | [], _ :: _ => true
  | _ :: _, [] => false
  | a :: as, b :: bs => if a = b then pyStrLtL as bs else pyCharLt a b

/-- Python `<` on strings. -/
def pyStrLt (a b : String) : Bool := pyStrLtL a.data b.data

/-- Python `split('/')` on the character list of a URL. -/
def splitSlash : List Char → List (List Char)
  | [] => [[]]
  | c :: cs =>
    match splitSlash cs with
    | [] => [[]]
    | h :: t => if c = '/' then [] :: h :: t else (c :: h) :: t

/-- `sort_key` (rpscrape.py lines 63–67): split the URL on `/` and return
`(parts[6], parts[5])`, i.e. `(race_date, race_course)` for canonical result
URLs.  Python raises `IndexError` on URLs with fewer than 7 segments; both URL
builders below always produce at least 8 segments, so the default argument of
`getD` is never used on the lists these functions sort. -/
def sort_key (url : String) : String × String :=
  let parts := (splitSlash url.data).map (fun l => (⟨l⟩ : String))
  (parts.getD 6 "", parts.getD 5 "")

/-- Python tuple comparison of two sort keys, as used by `sorted`:
lexicographic on the pair of strings. -/
def keyLe (a b : String × String) : Bool :=
  pyStrLt a.1 b.1 || (decide (a.1 = b.1) && (pyStrLt a.2 b.2 || decide (a.2 = b.2)))

theorem pyCharLt_trans (a b c : Char) (h1 : pyCharLt a b = true) (h2 : pyCharLt b c = true) :
    pyCharLt a c = true := by
  simp only [pyCharLt, decide_eq_true_eq] at *
  omega

theorem pyCharLt_asymm (a b : Char) (h1 : pyCharLt a b = false) (h2 : pyCharLt b a = false) :
    a = b := by
  simp only [pyCharLt, decide_eq_false_iff_not, not_lt] at h1 h2
  exact Char.ext (UInt32.toNat.inj (le_antisymm h2 h1))

theorem pyStrLtL_trans : ∀ a b c : List Char,
    pyStrLtL a b = true → pyStrLtL b c = true → pyStrLtL a c = true
  | [], [], _, h1, _ => by cases h1
  | _ :: _, [], _, h1, _ => by cases h1
  | [], _ :: _, [], _, h2 => by cases h2
  | _ :: _, _ :: _, [], _, h2 => by cases h2
  | [], _ :: _, _ :: _, _, _ => rfl
  | a :: as, b :: bs, c :: cs, h1, h2 => by
    simp only [pyStrLtL] at h1 h2 ⊢
    by_cases hab : a = b
    · subst hab
      rw [if_pos rfl] at h1
      by_cases hac : a = c
      · subst hac
        rw [if_pos rfl] at h2
        rw [if_pos rfl]
        exact pyStrLtL_trans as bs cs h1 h2
      · rw [if_neg hac] at h2 ⊢
        exact h2
    · rw [if_neg hab] at h1
      by_cases hbc : b = c
      · subst hbc
        rw [if_neg hab]
        exact h1
      · rw [if_neg hbc] at h2
        have hac : ¬a = c := by
          intro h
          subst h
          simp only [pyCharLt, decide_eq_true_eq] at h1 h2
          omega
        rw [if_neg hac]
        exact pyCharLt_trans a b c h1 h2

theorem pyStrLtL_antisymm : ∀ a b : List Char,
    pyStrLtL a b = false → pyStrLtL b a = false → a = b
  | [], [], _, _ => rfl
  | [], _ :: _, h1, _ => by cases h1
  | _ :: _, [], _, h2 => by cases h2
  | a :: as, b :: bs, h1, h2 => by
    simp only [pyStrLtL] at h1 h2
    by_cases hab : a = b
    · subst hab
      rw [if_pos rfl] at h1 h2
      rw [pyStrLtL_antisymm as bs h1 h2]
    · rw [if_neg hab] at h1
      rw [if_neg (fun h => hab h.symm)] at h2
      exact absurd (pyCharLt_asymm a b h1 h2) hab

theorem pyStrLt_trans (a b c : String) (h1 : pyStrLt a b = true) (h2 : pyStrLt b c = true) :
    pyStrLt a c = true :=
  pyStrLtL_trans a.data b.data c.data h1 h2

theorem pyStrLt_antisymm (a b : String) (h1 : pyStrLt a b = false) (h2 : pyStrLt b a = false) :
    a = b := by
  cases a; cases b
  exact congrArg String.mk (pyStrLtL_antisymm _ _ h1 h2)

theorem keyLe_trans (a b c : String × String)
    (h1 : keyLe a b = true) (h2 : keyLe b c = true) : keyLe a c = true := by
  simp only [keyLe, Bool.or_eq_true, Bool.and_eq_true, decide_eq_true_eq] at h1 h2 ⊢
  rcases h1 with h1 | ⟨h1e, h1le⟩
  · rcases h2 with h2 | ⟨h2e, _⟩
    · exact Or.inl (pyStrLt_trans _ _ _ h1 h2)
    · exact Or.inl (h2e ▸ h1)
  · rcases h2 with h2 | ⟨h2e, h2le⟩
    · exact Or.inl (h1e ▸ h2)
    · refine Or.inr ⟨h1e.trans h2e, ?_⟩
      rcases h1le with h1le | h1le
      · rcases h2le with h2le | h2le
        · exact Or.inl (pyStrLt_trans _ _ _ h1le h2le)
        · exact Or.inl (h2le ▸ h1le)
      · rcases h2le with h2le | h2le
        · exact Or.inl (h1le ▸ h2le)
        · exact Or.inr (h1le.trans h2le)

theorem keyLe_total (a b : String × String) : (keyLe a b || keyLe b a) = true := by
  simp only [keyLe, Bool.or_eq_true, Bool.and_eq_true, decide_eq_true_eq]
  cases hf : pyStrLt a.1 b.1
  · cases hs : pyStrLt b.1 a.1
    · have he : a.1 = b.1 := pyStrLt_antisymm _ _ hf hs
      cases hf2 : pyStrLt a.2 b.2
      · cases hs2 : pyStrLt b.2 a.2
        · exact Or.inl (Or.inr ⟨he, Or.inr (pyStrLt_antisymm _ _ hf2 hs2)⟩)
        · exact Or.inr (Or.inr ⟨he.symm, Or.inl rfl⟩)
      · exact Or.inl (Or.inr ⟨he, Or.inl rfl⟩)
    · exact Or.inr (Or.inl rfl)
  · exact Or.inl (Or.inl rfl)

/-- Insertion step of the sort: place `x` before the first element it
compares `le` to. -/
def insertSorted (le : String → String → Bool) (x : String) : List String → List String
  | [] => [x]
  | y :: ys => if le x y then x :: y :: ys else y :: insertSorted le x ys

/-- Sorting by repeated insertion.  Models Python `sorted` up to the order of
elements with equal keys, which `sorted(set(...))` leaves arbitrary anyway. -/
def sortLe (le : String → String → Bool) : List String → List String
  | [] => []
  | x :: xs => insertSorted le x (sortLe le xs)

/-- Python set construction, modelled as deduplication keeping the first
occurrence. -/
def dedupKeepFirst : List String → List String
  | [] => []
  | x :: xs => x :: (dedupKeepFirst xs).filter (fun y => decide (y ≠ x))

/-- `sorted(set(urls), key=sort_key)` (rpscrape.py lines 100 and 126):
deduplicate, then sort ascending by `sort_key`.  Python returns elements with
equal keys in the arbitrary set iteration order; the properties proved about
the result do not depend on that tie order. -/
def pySortedSet (urls : List String) : List String :=
  sortLe (fun a b => keyLe (sort_key a) (sort_key b)) (dedupKeepFirst urls)

theorem insertSorted_perm (le : String → String → Bool) (x : String) :
    ∀ l : List String, (insertSorted le x l).Perm (x :: l)
  | [] => List.Perm.refl _
  | y :: ys => by
    simp only [insertSorted]
    split
    · exact List.Perm.refl _
    · exact ((insertSorted_perm le x ys).cons y).trans (List.Perm.swap x y ys)

theorem sortLe_perm (le : String → String → Bool) :
    ∀ l : List String, (sortLe le l).Perm l
  | [] => List.Perm.refl _
  | x :: xs =>
    (insertSorted_perm le x (sortLe le xs)).trans ((sortLe_perm le xs).cons x)

theorem insertSorted_pairwise (le : String → String → Bool)
    (htot : ∀ a b, (le a b || le b a) = true)
    (htr : ∀ a b c, le a b = true → le b c = true → le a c = true)
    (x : String) : ∀ l : List String, l.Pairwise (le · · = true) →
      (insertSorted le x l).Pairwise (le · · = true)
  | [], _ => by simp [insertSorted]
  | y :: ys, h => by
    obtain ⟨hy, hys⟩ := List.pairwise_cons.1 h
    simp only [insertSorted]
    split
    · rename_i hxy
      refine List.pairwise_cons.2 ⟨?_, h⟩
      intro b hb
      rcases List.mem_cons.1 hb with rfl | hb
      · exact hxy
      · exact htr x y b hxy (hy b hb)
    · rename_i hxy
      have hyx : le y x = true := by
        have := htot x y
        rw [Bool.or_eq_true] at this
        rcases this with h1 | h1
        · exact absurd h1 hxy
        · exact h1
      refine List.pairwise_cons.2 ⟨?_, insertSorted_pairwise le htot htr x ys hys⟩
      intro b hb
      have hb2 := (insertSorted_perm le x ys).mem_iff.1 hb
      rcases List.mem_cons.1 hb2 with rfl | hb2
      · exact hyx
      · exact hy b hb2

theorem sortLe_pairwise (le : String → String → Bool)
    (htot : ∀ a b, (le a b || le b a) = true)
    (htr : ∀ a b c, le a b = true → le b c = true → le a c = true) :
    ∀ l : List String, (sortLe le l).Pairwise (le · · = true)
  | [] => List.Pairwise.nil
  | x :: xs => insertSorted_pairwise le htot htr x (sortLe le xs)
      (sortLe_pairwise le htot htr xs)

theorem dedupKeepFirst_nodup : ∀ l : List String, (dedupKeepFirst l).Nodup
  | [] => List.nodup_nil
  | x :: xs => by
    simp only [dedupKeepFirst]
    refine List.nodup_cons.2 ⟨?_, (dedupKeepFirst_nodup xs).filter _⟩
    intro hmem
    have := (List.mem_filter.1 hmem).2
    simp at this

/-- The output of `pySortedSet` is duplicate-free and sorted ascending by
`sort_key`. -/
theorem pySortedSet_spec (urls : List String) :
    (pySortedSet urls).Nodup ∧
    (pySortedSet urls).Pairwise (fun a b => keyLe (sort_key a) (sort_key b) = true) := by
  constructor
  · exact (sortLe_perm _ (dedupKeepFirst urls)).symm.nodup (dedupKeepFirst_nodup urls)
  · exact sortLe_pairwise _
      (fun a b => keyLe_total (sort_key a) (sort_key b))
      (fun a b c => keyLe_trans (sort_key a) (sort_key b) (sort_key c))
      (dedupKeepFirst urls)

/-- One race of the JSON envelope `data.principleRaceResults` (rpscrape.py
lines 88–97). -/
structure RaceEntry where
  raceDatetime : String
  raceInstanceUid : String
deriving DecidableEq

/-- The apostrophe character, removed from built URLs. -/
def apos : Char := Char.ofNat 39

/-- `.replace(' ', '-').replace(APOS, '')` applied to a built URL
(rpscrape.py line 98). -/
def urlClean (s : String) : String :=
  ⟨s.data.filterMap (fun c => if c = ' ' then some '-' else if c = apos then none else some c)⟩

/-- Canonical result URL built by `get_race_urls` (rpscrape.py lines 74 and
95–98): base, course id, course name, race date (first 10 characters of
`raceDatetime`), race instance uid. -/
def buildRaceUrl (course_id course : String) (race : RaceEntry) : String :=
  urlClean ("https://www.racingpost.com/results/" ++ course_id ++ "/" ++ course ++ "/" ++
    race.raceDatetime.take 10 ++ "/" ++ race.raceInstanceUid)

/-- Inner loop of `get_race_urls` over years for one `(course_id, course)`:
a non-200 index response (`fetch = none`) calls `sys.exit(1)`, modelled as
`Except.error`. -/
def gatherYearUrls (course_id course : String)
    (fetch : String → String → Option (List RaceEntry)) :
    List String → Except Unit (List String)
  | [] => .ok []
  | year :: ys =>
    match fetch course_id year with
    | none => .error ()
    | some races =>
      match gatherYearUrls course_id course fetch ys with
      | .error e => .error e
      | .ok rest => .ok (races.map (buildRaceUrl course_id course) ++ rest)

/-- Outer loop of `get_race_urls` over the configured tracks. -/
def gatherTrackUrls (years : List String)
    (fetch : String → String → Option (List RaceEntry)) :
    List (String × String) → Except Unit (List String)
  | [] => .ok []
  | (cid, course) :: ts =>
    match gatherYearUrls cid course fetch years with
    | .error e => .error e
    | .ok us =>
      match gatherTrackUrls years fetch ts with
      | .error e => .error e
      | .ok rest => .ok (us ++ rest)

/-- `get_race_urls` (rpscrape.py lines 70–100): accumulate canonical URLs
into a set over all `(course, year)` pairs, then return them sorted by
`sort_key`.  `fetch cid year` is the parsed `principleRaceResults` list of
the index response, `none` when the request did not return 200. -/
def get_race_urls (years : List String) (tracks : List (String × String))
    (fetch : String → String → Option (List RaceEntry)) : Except Unit (List String) :=
  match gatherTrackUrls years fetch tracks with
  | .error e => .error e
  | .ok urls => .ok (pySortedSet urls)

/-- Inner accumulation of `get_race_urls_date` (rpscrape.py lines 109–124):
for each date, a non-200 response is skipped; anchors whose third path
segment is a configured course id contribute
`https://www.racingpost.com + href`. -/
def dateUrls (course_ids : List String) (fetch : String → Option (List String)) :
    List String → List String
  | [] => []
  | d :: ds =>
    (match fetch d with
     | none => []
     | some hrefs =>
       (hrefs.filter (fun h => (h.splitOn "/").getD 2 "" ∈ course_ids)).map
         (fun h => "https://www.racingpost.com" ++ h)) ++ dateUrls course_ids fetch ds

/-- `get_race_urls_date` (rpscrape.py lines 103–126). `fetch d` is the list
of `link-listCourseNameLink` anchor hrefs of the results-index page for date
`d`, `none` when the request did not return 200. -/
def get_race_urls_date (dates : List String) (tracks : List (String × String))
    (fetch : String → Option (List String)) : List String :=
  pySortedSet (dateUrls (tracks.map Prod.fst) fetch dates)

/-- C8: for both discovery strategies and all inputs, the returned URL list
has no duplicates and is sorted ascending by the `(date, venue)` key that
`sort_key` extracts positionally from the URL path. -/
theorem race_urls_dedup_sorted (years : List String) (tracks : List (String × String))
    (fetchJ : String → String → Option (List RaceEntry))
    (dates : List String) (fetchD : String → Option (List String)) (l : List String)
    (h : get_race_urls years tracks fetchJ = .ok l) :
    (l.Nodup ∧ l.Pairwise (fun a b => keyLe (sort_key a) (sort_key b) = true)) ∧
    ((get_race_urls_date dates tracks fetchD).Nodup ∧
      (get_race_urls_date dates tracks fetchD).Pairwise
        (fun a b => keyLe (sort_key a) (sort_key b) = true)) := by
  constructor
  · have : ∃ urls, gatherTrackUrls years fetchJ tracks = .ok urls ∧ l = pySortedSet urls := by
      unfold get_race_urls at h
      cases hg : gatherTrackUrls years fetchJ tracks with
      | error e => rw [hg] at h; exact absurd h (by simp)
      | ok urls =>
        rw [hg] at h
        exact ⟨urls, rfl, by simpa using h.symm⟩
    obtain ⟨urls, _, rfl⟩ := this
    exact pySortedSet_spec urls
  · exact pySortedSet_spec _

/-- Witness for C8 on a concrete run: one course, one year, three index
entries containing one duplicate and out-of-order dates. -/
theorem race_urls_dedup_sorted_witness :
    (let l := ["https://www.racingpost.com/results/2/ascot/2020-01-01/8",
               "https://www.racingpost.com/results/2/ascot/2020-01-02/9"]
     (l.Nodup ∧ l.Pairwise (fun a b => keyLe (sort_key a) (sort_key b) = true)) ∧
     ((get_race_urls_date ["2020-01-01"] [("2", "ascot")]
        (fun _ => some ["/results/2/ascot/2020-01-01/8", "/results/7/epsom/2020-01-01/3"])).Nodup ∧
      (get_race_urls_date ["2020-01-01"] [("2", "ascot")]
        (fun _ => some ["/results/2/ascot/2020-01-01/8", "/results/7/epsom/2020-01-01/3"])).Pairwise
        (fun a b => keyLe (sort_key a) (sort_key b) = true))) :=
  race_urls_dedup_sorted ["2020"] [("2", "ascot")]
    (fun _ _ => some [⟨"2020-01-02T14:00", "9"⟩, ⟨"2020-01-01T13:00", "8"⟩,
      ⟨"2020-01-02T14:00", "9"⟩])
    ["2020-01-01"] (fun _ => some ["/results/2/ascot/2020-01-01/8", "/results/7/epsom/2020-01-01/3"])
    ["https://www.racingpost.com/results/2/ascot/2020-01-01/8",
     "https://www.racingpost.com/results/2/ascot/2020-01-02/9"]
    (by rfl)

/-! ### Betfair price index (scripts/utils/betfair.py) -/

/-- Modelled from the spec: `PriceRecord` of §3 — the `BSP` row type lives in
`models/betfair.py`, which is not among the scraped sources; it carries the
composite key fields `region`, `date`, `off_time` plus runner name and
settled price. -/
structure BSP where
  region : String
  date : String
  off : String
  horse : String
  price : ℚ
deriving DecidableEq

/-- The composite key `(row.region, row.date, row.off)` (betfair.py line 42). -/
def BSP.key (r : BSP) : String × String × String := (r.region, r.date, r.off)

/-- `dict.setdefault(key, []).append(row)` on an insertion-ordered mapping
from keys to row lists (betfair.py lines 41–43 and 65–66): append to the
existing entry, never overwrite; a fresh key gets a one-element list. -/
def mapAppend : List ((String × String × String) × List BSP) →
    (String × String × String) → BSP → List ((String × String × String) × List BSP)
  | [], k, r => [(k, [r])]
  | (k0, v) :: rest, k, r =>
    if k0 = k then (k0, v ++ [r]) :: rest else (k0, v) :: mapAppend rest k r

/-- Dictionary lookup, `[]` for a missing key. -/
def mapLookup : List ((String × String × String) × List BSP) →
    (String × String × String) → List BSP
  | [], _ => []
  | (k0, v) :: rest, k => if k0 = k then v else mapLookup rest k

/-- The index built by inserting a sequence of rows in order. -/
def buildData (rows : List BSP) : List ((String × String × String) × List BSP) :=
  rows.foldl (fun m r => mapAppend m r.key r) []

/-- Rows contributed by the fetch results: `None` (missing file) and empty
lists contribute nothing. -/
def fetchedRows : List (Option (List BSP)) → List BSP
  | [] => []
  | none :: rest => fetchedRows rest
  | some rows :: rest => rows ++ fetchedRows rest

/-- `Betfair.__init__` (betfair.py lines 22–45): for each archive URL, fetch
rows (`none` models a 404); skip missing or empty results (`if not rows:
continue`), otherwise extend `self.rows` and insert each row into
`self.data` keyed by `(region, date, off)`. -/
def betfairInitLoop : List (Option (List BSP)) →
    List BSP × List ((String × String × String) × List BSP) →
    List BSP × List ((String × String × String) × List BSP)
  | [], acc => acc
  | none :: rest, acc => betfairInitLoop rest acc
  | some rows :: rest, (allRows, data) =>
    if rows.isEmpty then betfairInitLoop rest (allRows, data)
    else betfairInitLoop rest
      (allRows ++ rows, rows.foldl (fun m r => mapAppend m r.key r) data)

/-- `Betfair.__init__` starting from empty state. -/
def betfairInit (fetched : List (Option (List BSP))) :
    List BSP × List ((String × String × String) × List BSP) :=
  betfairInitLoop fetched ([], [])

/-- `Betfair.from_csv` (betfair.py lines 47–68): each CSV record parses to a
row or is skipped (`BSP.from_csv` returning a falsy value); parsed rows are
appended to `self.rows` and inserted into `self.data` under the same key. -/
def fromCsvLoop : List (Option BSP) →
    List BSP × List ((String × String × String) × List BSP) →
    List BSP × List ((String × String × String) × List BSP)
  | [], acc => acc
  | none :: rest, acc => fromCsvLoop rest acc
  | some b :: rest, (rows, data) => fromCsvLoop rest (rows ++ [b], mapAppend data b.key b)

/-- `Betfair.from_csv` starting from empty state. -/
def betfair_from_csv (parsed : List (Option BSP)) :
    List BSP × List ((String × String × String) × List BSP) :=
  fromCsvLoop parsed ([], [])

theorem mapAppend_lookup (m : List ((String × String × String) × List BSP))
    (k : String × String × String) (r : BSP) (k2 : String × String × String) :
    mapLookup (mapAppend m k r) k2 =
      if k2 = k then mapLookup m k2 ++ [r] else mapLookup m k2 := by
  induction m with
  | nil =>
    simp only [mapAppend, mapLookup]
    by_cases h : k2 = k
    · subst h; simp
    · have h2 : ¬k = k2 := fun hc => h hc.symm
      simp [h, h2]
  | cons e rest ih =>
    obtain ⟨k0, v⟩ := e
    simp only [mapAppend]
    by_cases h0 : k0 = k
    · subst h0
      simp only [if_pos rfl, mapLookup]
      by_cases h2 : k0 = k2
      · subst h2; simp
      · have h2s : ¬k2 = k0 := fun hc => h2 hc.symm
        simp [h2, h2s]
    · rw [if_neg h0]
      simp only [mapLookup]
      by_cases h2 : k0 = k2
      · subst h2
        have h0s : ¬k0 = k := h0
        simp [h0s]
      · rw [if_neg h2, ih]
        by_cases hk : k2 = k
        · simp [hk, h2, h0]
        · simp [hk, h2]

theorem buildData_foldl_lookup (rows : List BSP)
    (m : List ((String × String × String) × List BSP)) (k : String × String × String) :
    mapLookup (rows.foldl (fun m r => mapAppend m r.key r) m) k =
      mapLookup m k ++ rows.filter (fun r => decide (r.key = k)) := by
  induction rows generalizing m with
  | nil => simp
  | cons r rs ih =>
    rw [List.foldl_cons, ih, mapAppend_lookup]
    by_cases h : r.key = k
    · simp [h, List.filter_cons]
    · have hs : ¬k = r.key := fun hc => h hc.symm
      simp [h, hs, List.filter_cons]

/-- Total row count over all entries of a map. -/
def mapSize (m : List ((String × String × String) × List BSP)) : ℕ :=
  (m.map (fun e => e.2.length)).sum

theorem mapAppend_size (m : List ((String × String × String) × List BSP))
    (k : String × String × String) (r : BSP) :
    mapSize (mapAppend m k r) = mapSize m + 1 := by
  induction m with
  | nil => simp [mapAppend, mapSize]
  | cons e rest ih =>
    obtain ⟨k0, v⟩ := e
    by_cases h : k0 = k
    · simp [mapAppend, h, mapSize]
      omega
    · simp [mapAppend, h, mapSize] at ih ⊢
      omega

theorem buildData_foldl_size (rows : List BSP)
    (m : List ((String × String × String) × List BSP)) :
    mapSize (rows.foldl (fun m r => mapAppend m r.key r) m) = mapSize m + rows.length := by
  induction rows generalizing m with
  | nil => simp
  | cons r rs ih =>
    rw [List.foldl_cons, ih, mapAppend_size]
    simp only [List.length_cons]
    omega

theorem betfairInitLoop_spec (fetched : List (Option (List BSP))) :
    ∀ rows0 data0, betfairInitLoop fetched (rows0, data0) =
      (rows0 ++ fetchedRows fetched,
        (fetchedRows fetched).foldl (fun m r => mapAppend m r.key r) data0) := by
  induction fetched with
  | nil => intro rows0 data0; simp [betfairInitLoop, fetchedRows]
  | cons o rest ih =>
    intro rows0 data0
    cases o with
    | none => simp [betfairInitLoop, fetchedRows, ih]
    | some rows =>
      by_cases h : rows.isEmpty
      · have hnil : rows = [] := List.isEmpty_iff.1 h
        subst hnil
        simp [betfairInitLoop, fetchedRows, ih]
      · simp only [betfairInitLoop, if_neg h, fetchedRows]
        rw [ih]
        simp [List.foldl_append]

theorem fromCsvLoop_spec (parsed : List (Option BSP)) :
    ∀ rows0 data0, fromCsvLoop parsed (rows0, data0) =
      (rows0 ++ parsed.filterMap id,
        (parsed.filterMap id).foldl (fun m r => mapAppend m r.key r) data0) := by
  induction parsed with
  | nil => intro rows0 data0; simp [fromCsvLoop]
  | cons o rest ih =>
    intro rows0 data0
    cases o with
    | none => simp [fromCsvLoop, ih]
    | some b => simp [fromCsvLoop, ih]

/-- C9: the index maps each composite key to the list of all inserted rows
with that key in insertion order (rows sharing a key are appended, never
overwritten), the total number of indexed rows equals the number of inserted
rows, and both constructors (`__init__` from fetched data, `from_csv`) build
exactly this index over their inserted row sequence. -/
theorem betfair_index_spec :
    (∀ (rows : List BSP) (k : String × String × String),
      mapLookup (buildData rows) k = rows.filter (fun r => decide (r.key = k))) ∧
    (∀ rows : List BSP, mapSize (buildData rows) = rows.length) ∧
    (∀ fetched : List (Option (List BSP)),
      betfairInit fetched = (fetchedRows fetched, buildData (fetchedRows fetched))) ∧
    (∀ parsed : List (Option BSP),
      betfair_from_csv parsed =
        (parsed.filterMap id, buildData (parsed.filterMap id))) := by
  refine ⟨?_, ?_, ?_, ?_⟩
  · intro rows k
    rw [buildData, buildData_foldl_lookup]
    rfl
  · intro rows
    rw [buildData, buildData_foldl_size]
    simp [mapSize]
  · intro fetched
    rw [betfairInit, betfairInitLoop_spec]
    rfl
  · intro parsed
    rw [betfair_from_csv, fromCsvLoop_spec]
    rfl

/-! ### get_data retry policy (scripts/utils/betfair.py lines 102–145) -/

/-- Result of one `get_data` call: `notFound` models `return None` on 404,
`ok rows` the parsed CSV rows of a 200 response, `httpError` the raised
`RuntimeError`. -/
inductive GDResult where
  | notFound
  | ok (rows : List BSP)
  | httpError (status : ℕ)
deriving DecidableEq

/-- Trace of one `get_data` call: the result, every `time.sleep` performed (in
seconds, in order), and the browser draw used for each request in order —
entry `j` means the `j`-th value drawn by `choice(BROWSERS)`; a repeated
entry means the same browser was reused, an incremented entry means a fresh
draw (identity rotation). -/
structure GDTrace where
  result : GDResult
  sleeps : List ℕ
  fetches : List ℕ
deriving DecidableEq

/-- The `for _ in range(4)` loop of `get_data` plus its post-loop check
(betfair.py lines 106–131).  `resps k` is the status of the `k`-th request of
this call, `rowsOf k` the rows its CSV body parses to.  Arguments: remaining
iterations, index of the current response, current browser draw, accumulated
sleeps and per-request browser draws. -/
def gdLoop (resps : ℕ → ℕ) (rowsOf : ℕ → List BSP) :
    ℕ → ℕ → ℕ → List ℕ → List ℕ → GDTrace
  | 0, k, _, sleeps, fetches =>
    if resps k = 200 then ⟨.ok (rowsOf k), sleeps, fetches⟩
    else ⟨.httpError (resps k), sleeps, fetches⟩
  | iters + 1, k, j, sleeps, fetches =>
    if resps k = 404 then ⟨.notFound, sleeps, fetches⟩
    else if resps k = 429 then
      gdLoop resps rowsOf iters (k + 1) j (sleeps ++ [10]) (fetches ++ [j])
    else if resps k = 520 then
      gdLoop resps rowsOf iters (k + 1) j (sleeps ++ [10]) (fetches ++ [j])
    else if resps k = 403 then
      gdLoop resps rowsOf iters (k + 1) (j + 1) (sleeps ++ [2]) (fetches ++ [j + 1])
    else if resps k = 200 then ⟨.ok (rowsOf k), sleeps, fetches⟩
    else ⟨.httpError (resps k), sleeps, fetches⟩

/-- `get_data`: initial draw, initial request, then the bounded retry loop. -/
def get_data (resps : ℕ → ℕ) (rowsOf : ℕ → List BSP) : GDTrace :=
  gdLoop resps rowsOf 4 0 0 [] [0]

/-- C5: a 404 response yields `None` — no error, no sleep; a 429 or 520
response triggers exactly one fixed 10-second sleep followed by a single
retry with the same browser (no exponential growth, no rotation); a 403
response triggers a 2-second sleep and a retry under a freshly drawn browser
identity; a 500 response raises; and a status that is still not 200 when the
retries are exhausted raises. -/
theorem get_data_retry_policy :
    (∀ (resps : ℕ → ℕ) (rowsOf : ℕ → List BSP), resps 0 = 404 →
      get_data resps rowsOf = ⟨.notFound, [], [0]⟩) ∧
    (∀ (resps : ℕ → ℕ) (rowsOf : ℕ → List BSP), resps 0 = 429 → resps 1 = 200 →
      get_data resps rowsOf = ⟨.ok (rowsOf 1), [10], [0, 0]⟩) ∧
    (∀ (resps : ℕ → ℕ) (rowsOf : ℕ → List BSP), resps 0 = 520 → resps 1 = 200 →
      get_data resps rowsOf = ⟨.ok (rowsOf 1), [10], [0, 0]⟩) ∧
    (∀ (resps : ℕ → ℕ) (rowsOf : ℕ → List BSP), resps 0 = 403 → resps 1 = 200 →
      get_data resps rowsOf = ⟨.ok (rowsOf 1), [2], [0, 1]⟩) ∧
    (∀ (resps : ℕ → ℕ) (rowsOf : ℕ → List BSP), resps 0 = 500 →
      get_data resps rowsOf = ⟨.httpError 500, [], [0]⟩) ∧
    (∀ (resps : ℕ → ℕ) (rowsOf : ℕ → List BSP), (∀ i, resps i = 429) →
      get_data resps rowsOf = ⟨.httpError 429, [10, 10, 10, 10], [0, 0, 0, 0, 0]⟩) := by
  refine ⟨?_, ?_, ?_, ?_, ?_, ?_⟩
  · intro resps rowsOf h0
    norm_num [get_data, gdLoop, h0]
  · intro resps rowsOf h0 h1
    norm_num [get_data, gdLoop, h0, h1]
  · intro resps rowsOf h0 h1
    norm_num [get_data, gdLoop, h0, h1]
  · intro resps rowsOf h0 h1
    norm_num [get_data, gdLoop, h0, h1]
  · intro resps rowsOf h0
    norm_num [get_data, gdLoop, h0]
  · intro resps rowsOf h
    norm_num [get_data, gdLoop, h]

/-- Witness for C5 at concrete response streams. -/
theorem get_data_retry_policy_witness :
    get_data (fun _ => 404) (fun _ => []) = ⟨.notFound, [], [0]⟩ ∧
    get_data (fun i => if i = 0 then 429 else 200) (fun _ => []) = ⟨.ok [], [10], [0, 0]⟩ ∧
    get_data (fun i => if i = 0 then 403 else 200) (fun _ => []) = ⟨.ok [], [2], [0, 1]⟩ ∧
    get_data (fun _ => 500) (fun _ => []) = ⟨.httpError 500, [], [0]⟩ ∧
    get_data (fun _ => 429) (fun _ => []) = ⟨.httpError 429, [10, 10, 10, 10], [0, 0, 0, 0, 0]⟩ :=
  have h := get_data_retry_policy
  ⟨h.1 _ _ rfl, h.2.1 _ _ rfl rfl, h.2.2.2.1 _ _ rfl rfl, h.2.2.2.2.1 _ _ rfl,
    h.2.2.2.2.2 _ _ (fun _ => rfl)⟩

/-! ### Venue and time normalization (scripts/utils/betfair_matching.py)

`normalize_venue` composes `str.lower`, Unicode NFD decomposition, removal of
combining marks (category Mn), a character filter, whitespace collapapsing and
stripping.  The Unicode tables behind `str.lower`,
`unicodedata.normalize("NFD", ...)`, `unicodedata.category` and the regex
class `\s` are external data; they are passed in as an `UnicodeOps` bundle.
The per-character model of NFD is exact on strings without multiple adjacent
combining marks (reordering only permutes marks, which are then removed). -/

structure UnicodeOps where
  lower : Char → List Char
  nfd : Char → List Char
  mn : Char → Bool
  sp : Char → Bool

/-- A character the regex class `[a-z0-9]` accepts. -/
def lowerAlnum (c : Char) : Bool :=
  (decide ('a' ≤ c) && decide (c ≤ 'z')) || (decide ('0' ≤ c) && decide (c ≤ '9'))

/-- `re.sub(r"\s+", " ", ...)`: replace each maximal run of whitespace by a
single space.  `prev` records whether the previous character was part of a
run. -/
def collapseSp (U : UnicodeOps) : Bool → List Char → List Char
  | _, [] => []
  | prev, c :: rest =>
    if U.sp c then
      if prev then collapseSp U true rest else ' ' :: collapseSp U true rest
    else c :: collapseSp U false rest

/-- `str.strip()`: drop whitespace from both ends. -/
def stripEnds (U : UnicodeOps) (l : List Char) : List Char :=
  ((l.dropWhile U.sp).reverse.dropWhile U.sp).reverse

/-- `normalize_venue` (betfair_matching.py lines 26–38). -/
def normalize_venue (U : UnicodeOps) (v : String) : String :=
  if v = "" then ""
  else
    let cs := v.data.flatMap U.lower
    let cs := cs.flatMap U.nfd
    let cs := cs.filter (fun c => !U.mn c)
    let cs := cs.filter (fun c => lowerAlnum c || U.sp c)
    ⟨stripEnds U (collapseSp U false cs)⟩

/-- The facts about the Unicode tables that the theorems use: characters in
`[a-z0-9]` and the space character are fixed points of lowercasing and NFD,
are not combining marks, and exactly the space is whitespace among them. -/
def asciiFixed (U : UnicodeOps) : Prop :=
  (∀ c, lowerAlnum c = true →
    U.lower c = [c] ∧ U.nfd c = [c] ∧ U.mn c = false ∧ U.sp c = false) ∧
  (U.lower ' ' = [' '] ∧ U.nfd ' ' = [' '] ∧ U.mn ' ' = false ∧ U.sp ' ' = true)

/-- ASCII lowercasing, as `str.lower` acts on ASCII letters. -/
def asciiLower (c : Char) : Char :=
  if 'A' ≤ c ∧ c ≤ 'Z' then Char.ofNat (c.toNat + 32) else c

/-- A concrete `UnicodeOps` covering the ASCII fragment of the Unicode
tables: ASCII lowercasing, trivial NFD, no combining marks, the four common
whitespace characters. -/
def asciiU : UnicodeOps :=
  ⟨fun c => [asciiLower c], fun c => [c], fun _ => false,
    fun c => decide (c = ' ') || decide (c = Char.ofNat 9) ||
      decide (c = Char.ofNat 10) || decide (c = Char.ofNat 13)⟩

theorem asciiFixed_asciiU : asciiFixed asciiU := by
  constructor
  · intro c hc
    simp only [lowerAlnum, Bool.or_eq_true, Bool.and_eq_true, decide_eq_true_eq] at hc
    have hno : ¬('A' ≤ c ∧ c ≤ 'Z') := by
      rcases hc with ⟨h1, h2⟩ | ⟨h1, h2⟩
      · rintro ⟨_, hz⟩
        exact absurd (lt_of_lt_of_le (by decide : 'Z' < 'a') h1) (not_lt.2 hz)
      · rintro ⟨ha, _⟩
        exact absurd (lt_of_le_of_lt h2 (by decide : '9' < 'A')) (not_lt.2 ha)
    have hne : ∀ d : Char, d < '0' → ¬(c = d) := by
      intro d hd hcd
      subst hcd
      rcases hc with ⟨h1, _⟩ | ⟨h1, _⟩
      · exact absurd (lt_of_lt_of_le (hd.trans (by decide : '0' < 'a')) h1) (lt_irrefl c)
      · exact absurd (lt_of_le_of_lt h1 hd) (lt_irrefl _)
    refine ⟨by simp [asciiU, asciiLower, hno], rfl, rfl, ?_⟩
    simp only [asciiU, Bool.or_eq_false_iff, decide_eq_false_iff_not]
    exact ⟨⟨⟨hne ' ' (by decide), hne _ (by decide)⟩, hne _ (by decide)⟩, hne _ (by decide)⟩
  · refine ⟨?_, rfl, rfl, ?_⟩ <;> decide

/-- Characters surviving the collapse step are kept alphanumerics or the
inserted single space. -/
theorem collapse_members (U : UnicodeOps) :
    ∀ (l : List Char) (prev : Bool), (∀ c ∈ l, lowerAlnum c = true ∨ U.sp c = true) →
      ∀ c ∈ collapseSp U prev l, (lowerAlnum c = true ∧ U.sp c = false) ∨ c = ' ' := by
  intro l
  induction l with
  | nil => intro prev _ c hc; simp [collapseSp] at hc
  | cons a rest ih =>
    intro prev h c hc
    have ha := h a (List.mem_cons_self _ _)
    have hr : ∀ x ∈ rest, lowerAlnum x = true ∨ U.sp x = true :=
      fun x hx => h x (List.mem_cons_of_mem _ hx)
    simp only [collapseSp] at hc
    by_cases hsp : U.sp a = true
    · rw [if_pos hsp] at hc
      cases prev with
      | true => exact ih true hr c (by simpa using hc)
      | false =>
        simp only [Bool.false_eq_true, if_false] at hc
        rcases List.mem_cons.1 hc with rfl | hc
        · exact Or.inr rfl
        · exact ih true hr c hc
    · rw [if_neg hsp] at hc
      rcases List.mem_cons.1 hc with rfl | hc
      · rcases ha with ha | ha
        · exact Or.inl ⟨ha, by simpa using hsp⟩
        · exact absurd ha hsp
      · exact ih false hr c hc

/-- After the collapse step no two spaces are adjacent; and right after a run
was collapsed, the output cannot begin with a space. -/
theorem collapse_chain (U : UnicodeOps) (hsp1 : U.sp ' ' = true) :
    ∀ (l : List Char) (prev : Bool), (∀ c ∈ l, lowerAlnum c = true ∨ U.sp c = true) →
      List.Chain' (fun a b => ¬(a = ' ' ∧ b = ' ')) (collapseSp U prev l) ∧
      (prev = true → (collapseSp U prev l).head? ≠ some ' ') := by
  intro l
  induction l with
  | nil => intro prev _; simp [collapseSp]
  | cons a rest ih =>
    intro prev h
    have hr : ∀ x ∈ rest, lowerAlnum x = true ∨ U.sp x = true :=
      fun x hx => h x (List.mem_cons_of_mem _ hx)
    simp only [collapseSp]
    by_cases hsp : U.sp a = true
    · rw [if_pos hsp]
      cases prev with
      | true => exact ih true hr
      | false =>
        simp only [Bool.false_eq_true, if_false]
        constructor
        · refine List.chain'_cons'.2 ⟨?_, (ih true hr).1⟩
          intro y hy hcon
          exact (ih true hr).2 rfl (by rw [hy, hcon.2])
        · intro hfalse
          exact absurd hfalse (by simp)
    · rw [if_neg hsp]
      have hane : a ≠ ' ' := by
        intro hc
        rw [hc] at hsp
        exact hsp hsp1
      constructor
      · refine List.chain'_cons'.2 ⟨?_, (ih false hr).1⟩
        intro y _ hcon
        exact hane hcon.1
      · intro _
        simp only [List.head?_cons, ne_eq, Option.some.injEq]
        exact hane

/-- The head of `dropWhile p` does not satisfy `p`. -/
theorem dropWhile_head_false {α : Type} (p : α → Bool) :
    ∀ (l : List α) (c : α), (l.dropWhile p).head? = some c → p c = false := by
  intro l
  induction l with
  | nil => intro c hc; simp at hc
  | cons x xs ih =>
    intro c hc
    rw [List.dropWhile_cons] at hc
    by_cases hp : p x = true
    · rw [if_pos hp] at hc
      exact ih c hc
    · rw [if_neg hp] at hc
      simp only [List.head?_cons, Option.some.injEq] at hc
      rw [← hc]
      simpa using hp

/-- A nonempty suffix ends in the same element as the whole list. -/
theorem getLast?_of_suffix {α : Type} {l1 l2 : List α} (h : l1 <:+ l2) (hne : l1 ≠ []) :
    l1.getLast? = l2.getLast? := by
  obtain ⟨t, rfl⟩ := h
  rw [List.getLast?_append]
  cases hl : l1.getLast? with
  | none => exact absurd (List.getLast?_eq_none_iff.1 hl) hne
  | some x => rfl

/-- Replacing each character by itself is the identity on `flatMap`. -/
theorem flatMap_id_of (f : Char → List Char) :
    ∀ l : List Char, (∀ c ∈ l, f c = [c]) → l.flatMap f = l := by
  intro l
  induction l with
  | nil => intro _; rfl
  | cons a rest ih =>
    intro h
    rw [List.flatMap_cons, h a (List.mem_cons_self _ _),
      ih (fun c hc => h c (List.mem_cons_of_mem _ hc))]
    rfl

/-- On a list of kept alphanumerics and isolated single spaces, the collapse
step is the identity. -/
theorem collapse_id (U : UnicodeOps) (hsp1 : U.sp ' ' = true)
    (hal : ∀ c, lowerAlnum c = true → U.sp c = false) :
    ∀ l : List Char, (∀ c ∈ l, lowerAlnum c = true ∨ c = ' ') →
      List.Chain' (fun a b => ¬(a = ' ' ∧ b = ' ')) l →
      collapseSp U false l = l ∧ (l.head? ≠ some ' ' → collapseSp U true l = l) := by
  intro l
  induction l with
  | nil => intro _ _; exact ⟨rfl, fun _ => rfl⟩
  | cons a rest ih =>
    intro h hch
    have ha := h a (List.mem_cons_self _ _)
    have hr : ∀ x ∈ rest, lowerAlnum x = true ∨ x = ' ' :=
      fun x hx => h x (List.mem_cons_of_mem _ hx)
    have hchr : List.Chain' (fun a b => ¬(a = ' ' ∧ b = ' ')) rest :=
      (List.chain'_cons'.1 hch).2
    rcases ha with ha | ha
    · have hspa : U.sp a = false := hal a ha
      constructor
      · simp only [collapseSp, hspa, Bool.false_eq_true, if_false]
        rw [(ih hr hchr).1]
      · intro _
        simp only [collapseSp, hspa, Bool.false_eq_true, if_false]
        rw [(ih hr hchr).1]
    · subst ha
      have hrh : rest.head? ≠ some ' ' := by
        intro hc
        exact (List.chain'_cons'.1 hch).1 ' ' hc ⟨rfl, rfl⟩
      constructor
      · simp only [collapseSp, hsp1, if_true, Bool.false_eq_true, if_false]
        rw [(ih hr hchr).2 hrh]
      · intro hhead
        exact absurd (rfl : (' ' :: rest).head? = some ' ') hhead

/-- On a list with no leading or trailing space, the strip step is the
identity. -/
theorem strip_id (U : UnicodeOps)
    (hal : ∀ c, lowerAlnum c = true → U.sp c = false)
    (l : List Char) (h : ∀ c ∈ l, lowerAlnum c = true ∨ c = ' ')
    (hh : l.head? ≠ some ' ') (hl : l.getLast? ≠ some ' ') :
    stripEnds U l = l := by
  have hgood : ∀ c ∈ l, c ≠ ' ' → U.sp c = false := by
    intro c hc hne
    rcases h c hc with hc2 | hc2
    · exact hal c hc2
    · exact absurd hc2 hne
  have hstep1 : l.dropWhile U.sp = l := by
    cases l with
    | nil => rfl
    | cons a rest =>
      have hane : a ≠ ' ' := by
        intro hc
        exact hh (by rw [hc]; rfl)
      rw [List.dropWhile_cons, if_neg (by
        rw [hgood a (List.mem_cons_self _ _) hane]
        simp)]
  have hstep2 : l.reverse.dropWhile U.sp = l.reverse := by
    cases hrev : l.reverse with
    | nil => rfl
    | cons a rest =>
      have haL : l.getLast? = some a := by
        rw [← List.head?_reverse, hrev]
        rfl
      have hane : a ≠ ' ' := by
        intro hc
        rw [hc] at haL
        exact hl haL
      have hamem : a ∈ l := by
        have : a ∈ l.reverse := by rw [hrev]; exact List.mem_cons_self _ _
        exact List.mem_reverse.1 this
      rw [List.dropWhile_cons, if_neg (by
        rw [hgood a hamem hane]
        simp)]
  rw [stripEnds, hstep1, hstep2, List.reverse_reverse]

/-- C10: `normalize_venue` is idempotent, and its output consists only of
lowercase alphanumerics and single interior spaces, with no leading or
trailing whitespace. -/
theorem normalize_venue_idempotent (U : UnicodeOps) (hU : asciiFixed U) (v : String) :
    normalize_venue U (normalize_venue U v) = normalize_venue U v ∧
    (∀ c ∈ (normalize_venue U v).data, lowerAlnum c = true ∨ c = ' ') ∧
    List.Chain' (fun a b => ¬(a = ' ' ∧ b = ' ')) (normalize_venue U v).data ∧
    (normalize_venue U v).data.head? ≠ some ' ' ∧
    (normalize_venue U v).data.getLast? ≠ some ' ' := by
  obtain ⟨hA, hL, hN, hM, hS⟩ := And.intro hU.1 hU.2
  -- shape of the output, for arbitrary input
  have shape : ∀ w : String,
      (∀ c ∈ (normalize_venue U w).data, lowerAlnum c = true ∨ c = ' ') ∧
      List.Chain' (fun a b => ¬(a = ' ' ∧ b = ' ')) (normalize_venue U w).data ∧
      (normalize_venue U w).data.head? ≠ some ' ' ∧
      (normalize_venue U w).data.getLast? ≠ some ' ' := by
    intro w
    by_cases hw : w = ""
    · subst hw
      simp [normalize_venue]
    · unfold normalize_venue
      rw [if_neg hw]
      set l4 := ((w.data.flatMap U.lower).flatMap U.nfd).filter (fun c => !U.mn c)
        |>.filter (fun c => lowerAlnum c || U.sp c) with hl4
      have hmem4 : ∀ c ∈ l4, lowerAlnum c = true ∨ U.sp c = true := by
        intro c hc
        have := (List.mem_filter.1 hc).2
        simpa using this
      set lc := collapseSp U false l4 with hlc
      have hm := collapse_members U l4 false hmem4
      have hch := (collapse_chain U hS l4 false hmem4).1
      set l1 := lc.dropWhile U.sp with hl1
      set l1r := l1.reverse.dropWhile U.sp with hl1r
      have hfinal : stripEnds U lc = l1r.reverse := rfl
      have hsubset : ∀ c ∈ l1r.reverse, c ∈ lc := by
        intro c hc
        rw [List.mem_reverse] at hc
        have h2 : c ∈ l1.reverse := (List.dropWhile_sublist _).subset hc
        rw [List.mem_reverse] at h2
        exact (List.dropWhile_sublist _).subset h2
      refine ⟨?_, ?_, ?_, ?_⟩
      · intro c hc
        rcases hm c (hsubset c hc) with ⟨h1, _⟩ | h1
        · exact Or.inl h1
        · exact Or.inr h1
      · have hch1 : List.Chain' (fun a b => ¬(a = ' ' ∧ b = ' ')) l1 :=
          hch.suffix (List.dropWhile_suffix _)
        have hch1r : List.Chain' (fun a b => ¬(a = ' ' ∧ b = ' ')) l1.reverse := by
          rw [List.chain'_reverse]
          exact hch1.imp (fun a b hab hc => hab ⟨hc.2, hc.1⟩)
        have hch2 : List.Chain' (fun a b => ¬(a = ' ' ∧ b = ' ')) l1r :=
          hch1r.suffix (List.dropWhile_suffix _)
        show List.Chain' _ l1r.reverse
        rw [List.chain'_reverse]
        exact hch2.imp (fun a b hab hc => hab ⟨hc.2, hc.1⟩)
      · show l1r.reverse.head? ≠ some ' '
        intro hc
        rw [List.head?_reverse] at hc
        have hne : l1r ≠ [] := by
          intro h0
          rw [h0] at hc
          exact absurd hc (by simp)
        have := getLast?_of_suffix (List.dropWhile_suffix (l := l1.reverse) U.sp) hne
        rw [this, List.getLast?_reverse] at hc
        have := dropWhile_head_false U.sp lc ' ' hc
        rw [hS] at this
        exact absurd this (by simp)
      · show l1r.reverse.getLast? ≠ some ' '
        intro hc
        rw [List.getLast?_reverse] at hc
        have := dropWhile_head_false U.sp l1.reverse ' ' hc
        rw [hS] at this
        exact absurd this (by simp)
  refine ⟨?_, (shape v).1, (shape v).2.1, (shape v).2.2.1, (shape v).2.2.2⟩
  obtain ⟨hmem, hch, hhead, hlast⟩ := shape v
  set w := normalize_venue U v with hwdef
  by_cases hw : w = ""
  · rw [hw]
    simp [normalize_venue]
  · unfold normalize_venue
    rw [if_neg hw]
    show (⟨stripEnds U (collapseSp U false ((((w.data.flatMap U.lower).flatMap U.nfd).filter
      (fun c => !U.mn c)).filter (fun c => lowerAlnum c || U.sp c)))⟩ : String) = w
    have halsp : ∀ c, lowerAlnum c = true → U.sp c = false := fun c hc => (hA c hc).2.2.2
    have e1 : w.data.flatMap U.lower = w.data := by
      refine flatMap_id_of U.lower w.data ?_
      intro c hc
      rcases hmem c hc with h1 | h1
      · exact (hA c h1).1
      · rw [h1]; exact hL
    have e2 : w.data.flatMap U.nfd = w.data := by
      refine flatMap_id_of U.nfd w.data ?_
      intro c hc
      rcases hmem c hc with h1 | h1
      · exact (hA c h1).2.1
      · rw [h1]; exact hN
    have e3 : w.data.filter (fun c => !U.mn c) = w.data := by
      rw [List.filter_eq_self]
      intro c hc
      rcases hmem c hc with h1 | h1
      · rw [(hA c h1).2.2.1]; rfl
      · rw [h1, hM]; rfl
    have e4 : w.data.filter (fun c => lowerAlnum c || U.sp c) = w.data := by
      rw [List.filter_eq_self]
      intro c hc
      rcases hmem c hc with h1 | h1
      · rw [h1]; rfl
      · rw [h1, hS]; simp
    rw [e1, e2, e3, e4, (collapse_id U hS halsp w.data hmem hch).1,
      strip_id U halsp w.data hmem hhead hlast]

/-- Witness for C10: idempotence at the ASCII table fragment and a concrete
venue string. -/
theorem normalize_venue_idempotent_witness :
    normalize_venue asciiU (normalize_venue asciiU "Newmarket (July)") =
      normalize_venue asciiU "Newmarket (July)" :=
  (normalize_venue_idempotent asciiU asciiFixed_asciiU "Newmarket (July)").1

/-! ### Time normalization and race matching
(scripts/utils/betfair_matching.py lines 41–64 and 172–226) -/

/-- Python whitespace stripped by `int()` and `str.strip()` on the inputs in
scope (space, tab, newline, carriage return). -/
def wsChar (c : Char) : Bool :=
  decide (c = ' ') || decide (c = Char.ofNat 9) ||
    decide (c = Char.ofNat 10) || decide (c = Char.ofNat 13)

/-- Strip that whitespace from both ends of a character list. -/
def stripWs (l : List Char) : List Char :=
  ((l.dropWhile wsChar).reverse.dropWhile wsChar).reverse

/-- Value of a non-empty all-decimal-digit character list, else `none`. -/
def digitsVal : List Char → Option ℕ
  | [] => none
  | cs =>
    if cs.all (fun c => decide ('0' ≤ c) && decide (c ≤ '9')) then
      some (cs.foldl (fun n c => 10 * n + (c.toNat - 48)) 0)
    else none

/-- Python `int(s)` on the strings in scope: optional surrounding whitespace,
optional sign, decimal digits; `none` models the raised `ValueError`.
(Underscore digit grouping and non-ASCII digits are outside the modelled
domain.) -/
def pyInt (s : String) : Option ℤ :=
  match stripWs s.data with
  | '+' :: rest => (digitsVal rest).map (fun n => (n : ℤ))
  | '-' :: rest => (digitsVal rest).map (fun n => -(n : ℤ))
  | l => (digitsVal l).map (fun n => (n : ℤ))

/-- Python `split(':')` on a character list. -/
def splitColon : List Char → List (List Char)
  | [] => [[]]
  | c :: cs =>
    match splitColon cs with
    | [] => [[]]
    | h :: t => if c = ':' then [] :: h :: t else (c :: h) :: t

/-- `race_time_norm.split(":")` followed by `map(int, ...)` unpacked into two
values and combined as total minutes (betfair_matching.py lines 198–199);
`none` models the caught `ValueError`. -/
def parseHM (s : String) : Option ℤ :=
  match (splitColon s.data).map (fun l => (⟨l⟩ : String)) with
  | [h, m] =>
    match pyInt h, pyInt m with
    | some a, some b => some (a * 60 + b)
    | _, _ => none
  | _ => none

/-- A decimal digit, the regex class `\d` restricted to ASCII. -/
def isDig (c : Char) : Bool := decide ('0' ≤ c) && decide (c ≤ '9')

/-- Numeric value of a digit character. -/
def digToNat (c : Char) : ℕ := c.toNat - 48

/-- Try the pattern `(\d{1,2}):(\d{2})` anchored at the current position,
greedy on the first group, as Python's backtracking does. -/
def timeAt : List Char → Option (ℕ × List Char)
  | c1 :: c2 :: c3 :: c4 :: c5 :: _ =>
    if isDig c1 && isDig c2 && decide (c3 = ':') && isDig c4 && isDig c5 then
      some (10 * digToNat c1 + digToNat c2, [c4, c5])
    else if isDig c1 && decide (c2 = ':') && isDig c3 && isDig c4 then
      some (digToNat c1, [c3, c4])
    else none
  | [c1, c2, c3, c4] =>
    if isDig c1 && decide (c2 = ':') && isDig c3 && isDig c4 then
      some (digToNat c1, [c3, c4])
    else none
  | _ => none

/-- `re.search(r"(\d{1,2}):(\d{2})", ...)`: leftmost match. -/
def timeScan : List Char → Option (ℕ × List Char)
  | [] => none
  | c :: rest =>
    match timeAt (c :: rest) with
    | some r => some r
    | none => timeScan rest

/-- `f"{hours:02d}"` on the values the 1–2-digit capture can produce
(0–99). -/
def fmt02 (h : ℕ) : String :=
  if h < 10 then ⟨['0', Char.ofNat (48 + h)]⟩
  else ⟨[Char.ofNat (48 + h / 10), Char.ofNat (48 + h % 10)]⟩

/-- `normalize_time` (betfair_matching.py lines 41–64).  The ISO branch
(`datetime.fromisoformat` plus conversion to Europe/London) is an external
collaborator passed in as `iso`; `iso t = none` models the caught exception,
after which the code falls through to the regex branch.  Strings without a
`T` never reach the ISO branch. -/
def normalize_time (iso : String → Option String) (t : String) : String :=
  if t = "" then ""
  else
    let fallback :=
      match timeScan t.data with
      | some (h, mins) => fmt02 h ++ ":" ++ (⟨mins⟩ : String)
      | none => t
    if t.data.contains 'T' then
      match iso t with
      | some s => s
      | none => fallback
    else fallback

/-- A Betfair market candidate: the `venue` and `start_time` values of the
market dict (missing keys read as `""` via `.get`), plus an identifier
standing for the rest of the dict. -/
structure Market where
  venue : String
  start_time : String
  market_id : ℕ
deriving DecidableEq

/-- `needle` is a prefix of `hay`. -/
def prefB : List Char → List Char → Bool
  | [], _ => true
  | _ :: _, [] => false
  | a :: as, b :: bs => decide (a = b) && prefB as bs

/-- Python substring containment `needle in hay`. -/
def substrB : List Char → List Char → Bool
  | n, [] => prefB n []
  | n, h :: t => prefB n (h :: t) || substrB n t

/-- The venue/time screening and time delta of one candidate market
(betfair_matching.py lines 206–224): skip when the normalized market venue is
empty or matches in neither direction, skip when the market time does not
parse, otherwise the absolute off-time delta in minutes. -/
def marketDelta (U : UnicodeOps) (iso : String → Option String) (rvn : String) (rt : ℤ)
    (m : Market) : Option ℤ :=
  let mvn := normalize_venue U m.venue
  let mtn := normalize_time iso m.start_time
  if mvn = "" then none
  else if substrB rvn.data mvn.data = false ∧ substrB mvn.data rvn.data = false then none
  else
    match parseHM mtn with
    | none => none
    | some mt => some |rt - mt|

/-- `time_diff < best_time_diff` with `best_time_diff` starting at
`float("inf")`. -/
def ltBestB (best : Option (Market × ℤ)) (d : ℤ) : Bool :=
  match best with
  | none => true
  | some p => decide (d < p.2)

/-- The candidate loop of `match_race_to_market` (betfair_matching.py lines
203–226), carrying `(best_match, best_time_diff)`. -/
def mLoop (U : UnicodeOps) (iso : String → Option String) (rvn : String) (rt tol : ℤ) :
    List Market → Option (Market × ℤ) → Option Market
  | [], best => best.map Prod.fst
  | m :: rest, best =>
    match marketDelta U iso rvn rt m with
    | none => mLoop U iso rvn rt tol rest best
    | some d =>
      if d ≤ tol ∧ ltBestB best d = true then mLoop U iso rvn rt tol rest (some (m, d))
      else mLoop U iso rvn rt tol rest best

/-- `match_race_to_market` (betfair_matching.py lines 172–226). -/
def match_race_to_market (U : UnicodeOps) (iso : String → Option String)
    (race_venue race_time : String) (markets : List Market) (tol : ℤ) : Option Market :=
  let rvn := normalize_venue U race_venue
  let rtn := normalize_time iso race_time
  if rvn = "" ∨ rtn = "" then none
  else
    match parseHM rtn with
    | none => none
    | some rt => mLoop U iso rvn rt tol markets none

/-- The loop yields `None` exactly when it started with no best candidate and
no candidate qualifies (venue match and delta within tolerance). -/
theorem mLoop_none (U : UnicodeOps) (iso : String → Option String) (rvn : String) (rt tol : ℤ) :
    ∀ (ms : List Market) (best : Option (Market × ℤ)),
      (mLoop U iso rvn rt tol ms best = none ↔
        best = none ∧ ∀ m ∈ ms, ∀ d, marketDelta U iso rvn rt m = some d → ¬(d ≤ tol)) := by
  intro ms
  induction ms with
  | nil =>
    intro best
    cases best with
    | none => simp [mLoop]
    | some p => simp [mLoop]
  | cons mk rest ih =>
    intro best
    simp only [mLoop]
    cases hd : marketDelta U iso rvn rt mk with
    | none =>
      dsimp only
      rw [ih best]
      constructor
      · rintro ⟨h1, h2⟩
        refine ⟨h1, ?_⟩
        intro m2 hm2 d2 hd2
        rcases List.mem_cons.1 hm2 with rfl | hm2
        · rw [hd] at hd2; cases hd2
        · exact h2 m2 hm2 d2 hd2
      · rintro ⟨h1, h2⟩
        exact ⟨h1, fun m2 hm2 d2 hd2 => h2 m2 (List.mem_cons_of_mem _ hm2) d2 hd2⟩
    | some d =>
      dsimp only
      by_cases hc : d ≤ tol ∧ ltBestB best d = true
      · rw [if_pos hc, ih (some (mk, d))]
        constructor
        · rintro ⟨h1, _⟩; cases h1
        · rintro ⟨_, h2⟩
          exact absurd hc.1 (h2 mk (List.mem_cons_self _ _) d hd)
      · rw [if_neg hc, ih best]
        constructor
        · rintro ⟨h1, h2⟩
          subst h1
          refine ⟨rfl, ?_⟩
          intro m2 hm2 d2 hd2
          rcases List.mem_cons.1 hm2 with rfl | hm2
          · rw [hd] at hd2
            injection hd2 with hdd
            subst hdd
            intro hdt
            exact hc ⟨hdt, rfl⟩
          · exact h2 m2 hm2 d2 hd2
        · rintro ⟨h1, h2⟩
          subst h1
          exact ⟨rfl, fun m2 hm2 d2 hd2 => h2 m2 (List.mem_cons_of_mem _ hm2) d2 hd2⟩

/-- When the loop yields a market, it is either the incoming best candidate
(still unbeaten), or the first-seen candidate attaining the minimal
within-tolerance delta among the remaining markets, strictly better than the
incoming best. -/
theorem mLoop_some (U : UnicodeOps) (iso : String → Option String) (rvn : String) (rt tol : ℤ) :
    ∀ (ms : List Market) (best : Option (Market × ℤ)) (m : Market),
      (∀ b db, best = some (b, db) → db ≤ tol) →
      mLoop U iso rvn rt tol ms best = some m →
      (∃ d, best = some (m, d) ∧
        ∀ m2 ∈ ms, ∀ d2, marketDelta U iso rvn rt m2 = some d2 → d2 ≤ tol → d ≤ d2) ∨
      (∃ (i : ℕ) (d : ℤ), ms[i]? = some m ∧ marketDelta U iso rvn rt m = some d ∧ d ≤ tol ∧
        (∀ b db, best = some (b, db) → d < db) ∧
        (∀ (j : ℕ) (m2 : Market) (d2 : ℤ), j < i → ms[j]? = some m2 →
          marketDelta U iso rvn rt m2 = some d2 → d2 ≤ tol → d < d2) ∧
        (∀ m2 ∈ ms, ∀ d2, marketDelta U iso rvn rt m2 = some d2 → d2 ≤ tol → d ≤ d2)) := by
  intro ms
  induction ms with
  | nil =>
    intro best m _ hrun
    cases best with
    | none => cases hrun
    | some p =>
      simp only [mLoop, Option.map_some] at hrun
      injection hrun with hm
      exact Or.inl ⟨p.2, by rw [← hm], by intro m2 hm2; cases hm2⟩
  | cons mk rest ih =>
    intro best m hbest hrun
    simp only [mLoop] at hrun
    cases hd : marketDelta U iso rvn rt mk with
    | none =>
      rw [hd] at hrun
      dsimp only at hrun
      rcases ih best m hbest hrun with ⟨d, hb, hall⟩ | ⟨i, d, hi, hmd, hdt, hblt, hearly, hall⟩
      · refine Or.inl ⟨d, hb, ?_⟩
        intro m2 hm2 d2 hd2 hdt2
        rcases List.mem_cons.1 hm2 with rfl | hm2
        · rw [hd] at hd2; cases hd2
        · exact hall m2 hm2 d2 hd2 hdt2
      · refine Or.inr ⟨i + 1, d, by simpa using hi, hmd, hdt, hblt, ?_, ?_⟩
        · intro j m2 d2 hj hjm hjd hjt
          cases j with
          | zero =>
            simp only [List.getElem?_cons_zero] at hjm
            injection hjm with hjm
            subst hjm
            rw [hd] at hjd; cases hjd
          | succ j2 =>
            simp only [List.getElem?_cons_succ] at hjm
            exact hearly j2 m2 d2 (by omega) hjm hjd hjt
        · intro m2 hm2 d2 hd2 hdt2
          rcases List.mem_cons.1 hm2 with rfl | hm2
          · rw [hd] at hd2; cases hd2
          · exact hall m2 hm2 d2 hd2 hdt2
    | some d0 =>
      rw [hd] at hrun
      dsimp only at hrun
      by_cases hc : d0 ≤ tol ∧ ltBestB best d0 = true
      · rw [if_pos hc] at hrun
        have hbest2 : ∀ b db, (some (mk, d0) : Option (Market × ℤ)) = some (b, db) → db ≤ tol := by
          intro b db h
          simp only [Option.some.injEq, Prod.mk.injEq] at h
          rw [← h.2]
          exact hc.1
        have hblt0 : ∀ b db, best = some (b, db) → d0 < db := by
          intro b db h
          have h2 := hc.2
          rw [h] at h2
          simpa [ltBestB] using h2
        rcases ih (some (mk, d0)) m hbest2 hrun with ⟨d, hb, hall⟩ |
          ⟨i, d, hi, hmd, hdt, hblt, hearly, hall⟩
        · simp only [Option.some.injEq, Prod.mk.injEq] at hb
          obtain ⟨rfl, rfl⟩ : mk = m ∧ d0 = d := hb
          refine Or.inr ⟨0, d0, by simp, hd, hc.1, hblt0, ?_, ?_⟩
          · intro j m2 d2 hj _ _ _
            omega
          · intro m2 hm2 d2 hd2 hdt2
            rcases List.mem_cons.1 hm2 with rfl | hm2
            · rw [hd] at hd2
              injection hd2 with hdd
              omega
            · exact hall m2 hm2 d2 hd2 hdt2
        · have hlt0 : d < d0 := hblt mk d0 rfl
          refine Or.inr ⟨i + 1, d, by simpa using hi, hmd, hdt, ?_, ?_, ?_⟩
          · intro b db hbdb
            exact lt_trans hlt0 (hblt0 b db hbdb)
          · intro j m2 d2 hj hjm hjd hjt
            cases j with
            | zero =>
              simp only [List.getElem?_cons_zero] at hjm
              injection hjm with hjm
              subst hjm
              rw [hd] at hjd
              injection hjd with hdd
              omega
            | succ j2 =>
              simp only [List.getElem?_cons_succ] at hjm
              exact hearly j2 m2 d2 (by omega) hjm hjd hjt
          · intro m2 hm2 d2 hd2 hdt2
            rcases List.mem_cons.1 hm2 with rfl | hm2
            · rw [hd] at hd2
              injection hd2 with hdd
              omega
            · exact hall m2 hm2 d2 hd2 hdt2
      · rw [if_neg hc] at hrun
        have hnb : d0 ≤ tol → ∀ b db, best = some (b, db) → db ≤ d0 := by
          intro hdt0 b db hbdb
          by_contra hlt
          push_neg at hlt
          refine hc ⟨hdt0, ?_⟩
          rw [hbdb]
          simpa [ltBestB] using hlt
        have hnone : d0 ≤ tol → best = none → False := by
          intro hdt0 hbn
          exact hc ⟨hdt0, by rw [hbn]; rfl⟩
        rcases ih best m hbest hrun with ⟨d, hb, hall⟩ |
          ⟨i, d, hi, hmd, hdt, hblt, hearly, hall⟩
        · refine Or.inl ⟨d, hb, ?_⟩
          intro m2 hm2 d2 hd2 hdt2
          rcases List.mem_cons.1 hm2 with rfl | hm2
          · rw [hd] at hd2
            injection hd2 with hdd
            subst hdd
            exact hnb hdt2 m d hb
          · exact hall m2 hm2 d2 hd2 hdt2
        · have hstep : d0 ≤ tol → d < d0 := by
            intro hdt0
            cases hbb : best with
            | none => exact absurd hbb (fun h => hnone hdt0 h)
            | some p =>
              obtain ⟨b, db⟩ := p
              exact lt_of_lt_of_le (hblt b db hbb) (hnb hdt0 b db hbb)
          refine Or.inr ⟨i + 1, d, by simpa using hi, hmd, hdt, hblt, ?_, ?_⟩
          · intro j m2 d2 hj hjm hjd hjt
            cases j with
            | zero =>
              simp only [List.getElem?_cons_zero] at hjm
              injection hjm with hjm
              subst hjm
              rw [hd] at hjd
              injection hjd with hdd
              subst hdd
              exact hstep hjt
            | succ j2 =>
              simp only [List.getElem?_cons_succ] at hjm
              exact hearly j2 m2 d2 (by omega) hjm hjd hjt
          · intro m2 hm2 d2 hd2 hdt2
            rcases List.mem_cons.1 hm2 with rfl | hm2
            · rw [hd] at hd2
              injection hd2 with hdd
              subst hdd
              exact le_of_lt (hstep hdt2)
            · exact hall m2 hm2 d2 hd2 hdt2

/-- C3: with a race whose normalized venue is non-empty and whose normalized
time parses, `match_race_to_market` returns `None` exactly when no candidate
market qualifies (venue substring match in either direction and absolute
off-time delta within tolerance, both folded into `marketDelta`); and when it
returns a market, that market qualifies, attains the minimal delta among all
qualifying candidates, and is the first-seen candidate attaining it.  In
particular, with tolerance 5, race Ascot 14:30 against markets Ascot 14:32
(delta 2) and Ascot 14:40 (delta 10) selects the delta-2 market. -/
theorem match_race_to_market_spec (U : UnicodeOps) (iso : String → Option String)
    (race_venue race_time : String) (markets : List Market) (tol : ℤ) (rt : ℤ)
    (hv : normalize_venue U race_venue ≠ "")
    (ht : normalize_time iso race_time ≠ "")
    (hp : parseHM (normalize_time iso race_time) = some rt) :
    (match_race_to_market U iso race_venue race_time markets tol = none ↔
      ∀ m ∈ markets, ∀ d, marketDelta U iso (normalize_venue U race_venue) rt m = some d →
        ¬(d ≤ tol)) ∧
    (∀ m, match_race_to_market U iso race_venue race_time markets tol = some m →
      ∃ (i : ℕ) (d : ℤ), markets[i]? = some m ∧
        marketDelta U iso (normalize_venue U race_venue) rt m = some d ∧ d ≤ tol ∧
        (∀ m2 ∈ markets, ∀ d2,
          marketDelta U iso (normalize_venue U race_venue) rt m2 = some d2 →
          d2 ≤ tol → d ≤ d2) ∧
        (∀ (j : ℕ) (m2 : Market) (d2 : ℤ), j < i → markets[j]? = some m2 →
          marketDelta U iso (normalize_venue U race_venue) rt m2 = some d2 →
          d2 ≤ tol → d < d2)) ∧
    match_race_to_market asciiU (fun _ => none) "Ascot" "14:30"
      [⟨"Ascot", "14:32", 1⟩, ⟨"Ascot", "14:40", 2⟩] 5 = some ⟨"Ascot", "14:32", 1⟩ := by
  have hres : match_race_to_market U iso race_venue race_time markets tol =
      mLoop U iso (normalize_venue U race_venue) rt tol markets none := by
    unfold match_race_to_market
    rw [if_neg (by simp [hv, ht]), hp]
  refine ⟨?_, ?_, by decide⟩
  · rw [hres, mLoop_none]
    simp
  · intro m hm
    rw [hres] at hm
    rcases mLoop_some U iso (normalize_venue U race_venue) rt tol markets none m
        (by intro b db h; cases h) hm with ⟨d, hb, _⟩ |
      ⟨i, d, hi, hmd, hdt, _, hearly, hall⟩
    · cases hb
    · exact ⟨i, d, hi, hmd, hdt, hall, hearly⟩

/-- Witness for C3: the spec's Ascot example, run through the theorem. -/
theorem match_race_to_market_spec_witness :
    match_race_to_market asciiU (fun _ => none) "Ascot" "14:30"
      [⟨"Ascot", "14:32", 1⟩, ⟨"Ascot", "14:40", 2⟩] 5 = some ⟨"Ascot", "14:32", 1⟩ :=
  (match_race_to_market_spec asciiU (fun _ => none) "Ascot" "14:30"
    [⟨"Ascot", "14:32", 1⟩, ⟨"Ascot", "14:40", 2⟩] 5 870
    (by decide) (by decide) (by decide)).2.2

/-! ### Profile fetcher (scripts/utils/profiles.py) -/

/-- A JSON value, as `orjson.loads` returns it. -/
inductive J where
  | obj : List (String × J) → J
  | arr : List J → J
  | str : String → J
  | num : ℤ → J
  | nul

/-- The Python exceptions that can escape one profile's processing.
`fetchError`, `parseError` and `networkError` are the three caught at the
loop boundary (profiles.py line 43); `keyError`, `typeError` and
`indexError` are not. -/
inductive PErr where
  | fetchError
  | parseError
  | networkError
  | keyError
  | typeError
  | indexError
deriving DecidableEq

/- Structural equality of JSON values: Python `==` on the parsed values, as
used by dict key lookup for the scalar uids in scope. -/
mutual

def jBeq : J → J → Bool
  | .obj a, .obj b => jBeqFields a b
  | .arr a, .arr b => jBeqList a b
  | .str a, .str b => a == b
  | .num a, .num b => a == b
  | .nul, .nul => true
  | _, _ => false

def jBeqFields : List (String × J) → List (String × J) → Bool
  | [], [] => true
  | (k1, v1) :: r1, (k2, v2) :: r2 => k1 == k2 && jBeq v1 v2 && jBeqFields r1 r2
  | _, _ => false

def jBeqList : List J → List J → Bool
  | [], [] => true
  | a :: as, b :: bs => jBeq a b && jBeqList as bs
  | _, _ => false

end

/-- `d[k]` on a parsed JSON value: `KeyError` when the key is missing,
`TypeError` when the value is not a dict. -/
def jGet (v : J) (k : String) : Except PErr J :=
  match v with
  | .obj fs =>
    match fs.lookup k with
    | some x => .ok x
    | none => .error .keyError
  | _ => .error .typeError

/-- Overwrite-or-append of one key in an insertion-ordered dict. -/
def upsertF : List (String × J) → String → J → List (String × J)
  | [], k, x => [(k, x)]
  | (k0, v0) :: rest, k, x =>
    if k0 = k then (k0, x) :: rest else (k0, v0) :: upsertF rest k x

/-- `d[k] = x` on a parsed JSON value. -/
def jSet (v : J) (k : String) (x : J) : Except PErr J :=
  match v with
  | .obj fs => .ok (.obj (upsertF fs k x))
  | _ => .error .typeError

/-- Characters of the remainder after the first occurrence of `sep`;
`none` when `sep` does not occur. -/
def afterFirst (sep : List Char) : List Char → Option (List Char)
  | [] => if prefB sep [] then some [] else none
  | c :: rest =>
    if prefB sep (c :: rest) then some ((c :: rest).drop sep.length)
    else afterFirst sep rest

/-- Characters up to (excluding) the next occurrence of `sep`. -/
def upToNext (sep : List Char) : List Char → List Char
  | [] => []
  | c :: rest => if prefB sep (c :: rest) then [] else c :: upToNext sep rest

/-- Strip semicolons from both ends, Python `.strip(';')`. -/
def stripSemis (l : List Char) : List Char :=
  ((l.dropWhile (fun c => decide (c = ';'))).reverse.dropWhile
    (fun c => decide (c = ';'))).reverse

/-- The fixed marker preceding the embedded JSON literal. -/
def PRELOADED_MARKER : String := "window.PRELOADED_STATE ="

/-- `_extract_json_string` (profiles.py lines 109–111):
`text.split(marker)[1].split(CHR10)[0].strip().strip(';')`; `none` models the
`IndexError` when the marker is absent. -/
def extract_json_string (txt : String) : Option String :=
  match afterFirst PRELOADED_MARKER.data txt.data with
  | none => none
  | some restChars =>
    some ⟨stripSemis (stripWs ((upToNext PRELOADED_MARKER.data restChars).takeWhile
      (fun c => decide (c ≠ Char.ofNat 10))))⟩

/-- The parse-relevant content of a fetched profile page: the `.text` of each
`//body/script` element (`none` for an element without text — its `.split`
raises `AttributeError`). -/
structure PDoc where
  scripts : List (Option String)

/-- Result of fetching one profile URL through the resilience layer. -/
inductive FetchRes where
  | fail (status : ℕ)
  | netErr
  | page (d : PDoc)

/-- `_parse_profile_response` (profiles.py lines 77–106).  `jloads` is the
external `orjson.loads`, `none` modelling `JSONDecodeError`.  Missing script
element, missing marker (`IndexError`), text `None` (`AttributeError`) and
malformed JSON are all caught inside and re-raised as `ProfileParseError`;
the `except KeyError` arm is unreachable because no key is accessed here. -/
def parse_profile_response (jloads : String → Option J) (d : PDoc) : Except PErr J :=
  match d.scripts with
  | [] => .error .parseError
  | s0 :: _ =>
    match s0 with
    | none => .error .parseError
    | some txt =>
      match extract_json_string txt with
      | none => .error .parseError
      | some js =>
        match jloads js with
        | none => .error .parseError
        | some v => .ok v

/-- `_extract_profile_from_url` (profiles.py lines 50–74): non-200 raises
`ProfileFetchError`, a persistent transport failure raises `NetworkError`,
otherwise the body is parsed. -/
def extract_profile_from_url (jloads : String → Option J) (r : FetchRes) : Except PErr J :=
  match r with
  | .fail _ => .error .fetchError
  | .netErr => .error .networkError
  | .page d => parse_profile_response jloads d

/-- The body of one iteration of `get_profiles` (profiles.py lines 35–41):
fetch and parse, then read the URL path segments 5 and 6 (`IndexError` if the
URL is too short), then mutate the nested `profile` dict — each `[...]` read
can raise `KeyError`/`TypeError` — and finally read `horseUid` as the mapping
key.  Returns the key and the mutated inner dict. -/
def process_one (jloads : String → Option J) (url : String) (r : FetchRes) :
    Except PErr (J × J) := do
  let profile ← extract_profile_from_url jloads r
  let parts := (splitSlash url.data).map (fun l => (⟨l⟩ : String))
  let prov ← if parts.length ≥ 7 then
      Except.ok (parts.getD 5 "" ++ "/" ++ parts.getD 6 "")
    else Except.error PErr.indexError
  let inner0 ← jGet profile "profile"
  let inner1 ← jSet inner0 "profile" (.str prov)
  let quotes ← jGet profile "quotes"
  let inner2 ← jSet inner1 "quotes" quotes
  let stq ← jGet profile "stableTourQuotes"
  let inner3 ← jSet inner2 "stable_quotes" stq
  let uid ← jGet inner3 "horseUid"
  return (uid, inner3)

/-- `profiles[uid] = prof` on the accumulated mapping. -/
def upsertJ : List (J × J) → J → J → List (J × J)
  | [], k, x => [(k, x)]
  | (k0, v0) :: rest, k, x =>
    if jBeq k0 k then (k0, x) :: rest else (k0, v0) :: upsertJ rest k x

/-- The loop of `get_profiles` (profiles.py lines 33–45): per URL, a raised
`ProfileFetchError`, `ProfileParseError` or `NetworkError` is caught, logged
and skipped; any other exception propagates and aborts the whole batch. -/
def get_profiles_loop (jloads : String → Option J) :
    List (String × FetchRes) → List (J × J) → Except PErr (List (J × J))
  | [], acc => .ok acc
  | (url, r) :: rest, acc =>
    match process_one jloads url r with
    | .ok (uid, prof) => get_profiles_loop jloads rest (upsertJ acc uid prof)
    | .error e =>
      if e = .fetchError ∨ e = .parseError ∨ e = .networkError then
        get_profiles_loop jloads rest acc
      else .error e

/-- `get_profiles` starting from the empty mapping. -/
def get_profiles (jloads : String → Option J) (items : List (String × FetchRes)) :
    Except PErr (List (J × J)) :=
  get_profiles_loop jloads items []

/-- A concrete `orjson.loads` table for the C6 scenarios: `GOOD` is a
complete profile payload, `EMPTYOBJ` parses to an empty JSON object (missing
every expected key), everything else is malformed. -/
def jlC6 : String → Option J := fun s =>
  if s = "GOOD" then
    some (J.obj [("profile", J.obj [("horseUid", J.str "H2")]),
      ("quotes", J.nul), ("stableTourQuotes", J.nul)])
  else if s = "EMPTYOBJ" then some (J.obj [])
  else none

/-- First profile URL of the batch. -/
def c6url1 : String := "https://www.racingpost.com/profile/horse/11/aa"

/-- Second profile URL of the batch. -/
def c6url2 : String := "https://www.racingpost.com/profile/horse/22/bb"

/-- The second profile's fetch result, a fully valid page. -/
def c6good : FetchRes := .page ⟨[some "window.PRELOADED_STATE =GOOD;"]⟩

/-- The mapping entry the valid second profile produces. -/
def c6goodEntry : J × J :=
  (J.str "H2", J.obj [("horseUid", J.str "H2"), ("profile", J.str "22/bb"),
    ("quotes", J.nul), ("stable_quotes", J.nul)])

/-- C6 evaluation: a profile whose embedded payload parses but lacks the
`profile` key raises `KeyError` inside the loop of `get_profiles`; the loop
catches only `ProfileFetchError`, `ProfileParseError` and `NetworkError`, so
the `KeyError` propagates and ABORTS the whole batch — the valid second
profile is never returned.  By contrast, a malformed JSON payload, a missing
script element, and a non-200 fetch are each caught and skipped, with the
rest of the batch still processed. -/
theorem get_profiles_keyerror_aborts_batch :
    get_profiles jlC6
      [(c6url1, .page ⟨[some "window.PRELOADED_STATE =EMPTYOBJ;"]⟩), (c6url2, c6good)] =
      .error .keyError ∧
    get_profiles jlC6
      [(c6url1, .page ⟨[some "window.PRELOADED_STATE =BADJSON;"]⟩), (c6url2, c6good)] =
      .ok [c6goodEntry] ∧
    get_profiles jlC6 [(c6url1, .page ⟨[]⟩), (c6url2, c6good)] = .ok [c6goodEntry] ∧
    get_profiles jlC6 [(c6url1, .fail 404), (c6url2, c6good)] = .ok [c6goodEntry] :=
  ⟨rfl, rfl, rfl, rfl⟩
